import Mathlib

/-!
Verification of the dependency-aware service orchestration engine:
topology registry, dependency graph batching (`get_start_order`),
transitive closures (`get_dependents` / `get_dependencies` /
`get_all_dependencies`), the static policy table (`SERVICE_CONFIGS`),
selection validation (`get_required_for_selection` / `validate_selection`),
the orchestration layer (`start_service` / `stop_service`) and the
topology loader merge semantics.

Machine-level conventions of the embedding:
* Python dicts are association lists (`List (String × _)`); lookup takes the
  first matching key, mirroring a dict with unique keys.
* Python sets are lists used only through membership; `sorted(...)` is
  `List.insertionSort (· ≤ ·)`.
* Raising an exception is modelled with `Except`; the unbounded recursion of
  the naive closures is modelled with an explicit fuel parameter where
  exhausting every fuel value witnesses non-termination.
-/

/-- A parsed service record (`ServiceDefinition` dataclass of the compose
parser): name, image, origin document, profile tags, dependency map
(dependency name, readiness condition), healthcheck flag, ports,
environment. -/
structure ServiceDefinition where
  name : String
  image : String
  compose_file : String
  profiles : List String := []
  depends_on : List (String × String) := []
  has_healthcheck : Bool := false
  ports : List String := []
  environment : List (String × String) := []
deriving DecidableEq

/-- The registry of parsed services: a dict keyed by service name. -/
abbrev Registry := List (String × ServiceDefinition)

/-- `self.services.get(name)`: first entry with the given key. -/
def lookupService (registry : Registry) (name : String) : Option ServiceDefinition :=
  (registry.find? (fun p => p.1 == name)).map (fun p => p.2)

/-- `set(self.services.keys())`. -/
def registryKeys (registry : Registry) : List String :=
  registry.map (fun p => p.1)

/-- `svc_def.depends_on.keys()`. -/
def depNames (sd : ServiceDefinition) : List String :=
  sd.depends_on.map (fun p => p.1)

/-- Dependency names of a service looked up in the registry (empty for an
unknown service). -/
def depNamesOf (registry : Registry) (service : String) : List String :=
  match lookupService registry service with
  | none => []
  | some sd => depNames sd

/-- One service of the inner loop of `get_start_order`: an unknown service is
batched unconditionally, a known one when every dependency is resolved. -/
def depsSatisfied (registry : Registry) (resolved : List String) (service : String) : Bool :=
  match lookupService registry service with
  | none => true
  | some sd => (depNames sd).all (fun d => resolved.contains d)

/-- One pass of the `get_start_order` loop: the batch collects every
remaining service whose dependencies are all resolved. -/
def passBatch (registry : Registry) (resolved remaining : List String) : List String :=
  remaining.filter (depsSatisfied registry resolved)

/-- The `while remaining and iteration < max_iterations` loop of
`get_start_order`.  Fuel counts the iterations left before the
`max_iterations` bound; hitting the bound exits the loop and returns the
accumulated result, an empty pass raises `ValueError` (carrying the
`remaining` set interpolated into the message). -/
def startOrderGo (registry : Registry) :
    Nat → List String → List String → List (List String) →
    Except (List String) (List (List String))
  | 0, _, _, result => .ok result
  | fuel+1, remaining, resolved, result =>
    if remaining.isEmpty then .ok result
    else if (passBatch registry resolved remaining).isEmpty then .error remaining
    else
      startOrderGo registry fuel
        (remaining.filter (fun s => !((passBatch registry resolved remaining).contains s)))
        (resolved ++ passBatch registry resolved remaining)
        (result ++ [List.insertionSort (· ≤ ·) (passBatch registry resolved remaining)])

/-- `DependencyGraph.get_start_order`: seed `resolved` with every registry
service outside the selection, then run at most `len(services) + 1` passes. -/
def get_start_order (registry : Registry) (services : List String) :
    Except (List String) (List (List String)) :=
  startOrderGo registry (services.length + 1) services.dedup
    ((registryKeys registry).filter (fun svc => !(services.contains svc))) []

/-- The dependency relation of the registry: `depRel registry a b` holds when
service `a` is defined and declares a dependency on `b`. -/
def depRel (registry : Registry) (a b : String) : Prop :=
  b ∈ depNamesOf registry a

/-- The registry is a proper graph: every dependency edge of a defined
service points at a registry key. -/
def ClosedRegistry (registry : Registry) : Prop :=
  ∀ p ∈ registry, ∀ d ∈ depNames p.2, d ∈ registryKeys registry

/-- The dependency edges of the registry contain no cycle. -/
def AcyclicRegistry (registry : Registry) : Prop :=
  ∀ s, ¬ Relation.TransGen (depRel registry) s s

/-- Set union keeping the left operand first (`set.update` up to order). -/
def unionAppend (a b : List String) : List String :=
  a ++ b.filter (fun x => !(a.contains x))

/-- `DependencyGraph.get_dependents`, made fuel-indexed because the source
recursion carries no visited set: `none` means the recursion depth exceeded
the fuel.  For each registry entry depending on the service the entry name is
added and its own dependents are computed recursively. -/
def getDependentsGo (registry : Registry) : Nat → String → Option (List String)
  | 0, _ => none
  | fuel+1, service =>
    registry.foldlM (fun acc p =>
      if (depNames p.2).contains service then
        match getDependentsGo registry fuel p.1 with
        | none => none
        | some sub => some (unionAppend (unionAppend acc [p.1]) sub)
      else
        some acc) []

/-- `get_dependents` run with the generous fuel `|registry| + 1` (enough for
any acyclic registry); `none` marks a diverging run. -/
def get_dependents (registry : Registry) (service : String) : Option (List String) :=
  getDependentsGo registry (registry.length + 1) service

/-- `DependencyGraph.get_dependencies`, fuel-indexed like
`getDependentsGo`: the transitive dependency closure by naive recursion. -/
def getDependenciesGo (registry : Registry) : Nat → String → Option (List String)
  | 0, _ => none
  | fuel+1, service =>
    match lookupService registry service with
    | none => some []
    | some sd =>
      let deps := (depNames sd).dedup
      deps.foldlM (fun acc dep =>
        match getDependenciesGo registry fuel dep with
        | none => none
        | some sub => some (unionAppend acc sub)) deps

/-- `get_dependencies` with fuel `|registry| + 1`. -/
def get_dependencies (registry : Registry) (service : String) : Option (List String) :=
  getDependenciesGo registry (registry.length + 1) service

/-- Shorthand for building a service record with the given dependencies. -/
def mkService (name : String) (deps : List (String × String)) : ServiceDefinition :=
  { name := name, image := "", compose_file := "main", depends_on := deps }

/-- The three-service chain of the specification example:
`A` has no dependency, `B` depends on `A`, `C` depends on `B`. -/
def chainRegistry : Registry :=
  [("A", mkService "A" []),
   ("B", mkService "B" [("A", "service_started")]),
   ("C", mkService "C" [("B", "service_healthy")])]

/-- A two-service registry whose dependency edges form a cycle. -/
def cyclicRegistry : Registry :=
  [("a", mkService "a" [("b", "service_started")]),
   ("b", mkService "b" [("a", "service_started")])]

/-- A registry whose single service declares a dependency on a name that is
absent from the registry. -/
def ghostRegistry : Registry :=
  [("A", mkService "A" [("ghost", "service_started")])]

/-- A start plan is dependency ordered w.r.t. a selection: every in-selection
dependency of a batched service lies in some strictly earlier batch. -/
def OrderedPlan (registry : Registry) (sel : List String) (res : List (List String)) : Prop :=
  ∀ i, ∀ hi : i < res.length, ∀ v ∈ res[i], ∀ d ∈ depNamesOf registry v,
    d ∈ sel → d ∈ (res.take i).flatten

/-- Outcome of a Process Driver call (`subprocess.CompletedProcess`). -/
structure CompletedProcess where
  returncode : Int
  stdout : String
  stderr : String
deriving DecidableEq

/-- `ServiceActionResponse` value object of the orchestration layer. -/
structure ServiceActionResponse where
  success : Bool
  message : String
  service : String
  action : String
  output : Option String := none
  error : Option String := none
deriving DecidableEq

/-- `DependencyWarning` value object returned alongside a stop. -/
structure DependencyWarning where
  service : String
  dependents : List String
  message : String
deriving DecidableEq

/-- `DockerService.start_service`.  The Process Driver (`compose_up`) is a
parameter mapping the profile finally chosen and the environment to either an
exception message (`.error`, the `except` branch) or a completed process. -/
def start_service (registry : Registry) (name : String) (profile0 : Option String)
    (environment : String)
    (driver : Option String → String → Except String CompletedProcess) :
    ServiceActionResponse :=
  match lookupService registry name with
  | none =>
    { success := false, message := "Service \x27" ++ name ++ "\x27 not found",
      service := name, action := "start" }
  | some sd =>
    let profile :=
      if !sd.profiles.isEmpty &&
          (match profile0 with
           | none => true
           | some p => !(sd.profiles.contains p)) then
        (if profile0 = none ∨ profile0 = some "" then sd.profiles.head? else profile0)
      else profile0
    match driver profile environment with
    | .error e =>
      { success := false, message := e, service := name, action := "start", error := some e }
    | .ok proc =>
      if proc.returncode = 0 then
        { success := true, message := "Service \x27" ++ name ++ "\x27 started successfully",
          service := name, action := "start", output := some proc.stdout }
      else
        { success := false, message := "Failed to start service \x27" ++ name ++ "\x27",
          service := name, action := "start", error := some proc.stderr }

/-- `DockerService.stop_service`.  The dependent set is computed through the
naive recursive closure, so the whole call is `none` when that closure
diverges; the Process Driver (`compose_down`) maps the profile to the
exception message or the completed process. -/
def stop_service (registry : Registry) (name : String) (force : Bool) (profile : Option String)
    (driver : Option String → Except String CompletedProcess) :
    Option (ServiceActionResponse × Option DependencyWarning) :=
  match lookupService registry name with
  | none =>
    some ({ success := false, message := "Service \x27" ++ name ++ "\x27 not found",
            service := name, action := "stop" }, none)
  | some _ =>
    match get_dependents registry name with
    | none => none
    | some dependents =>
      let warning : Option DependencyWarning :=
        if !dependents.isEmpty && !force then
          some { service := name, dependents := dependents,
                 message := "Stopping " ++ name ++ " will affect: " ++
                   String.intercalate ", " (List.insertionSort (fun a b => a ≤ b) dependents) }
        else none
      let response : ServiceActionResponse :=
        match driver profile with
        | .error e =>
          { success := false, message := e, service := name, action := "stop", error := some e }
        | .ok proc =>
          if proc.returncode = 0 then
            { success := true, message := "Service \x27" ++ name ++ "\x27 stopped successfully",
              service := name, action := "stop", output := some proc.stdout }
          else
            { success := false, message := "Failed to stop service \x27" ++ name ++ "\x27",
              service := name, action := "stop", error := some proc.stderr }
      some (response, warning)

/-! ### The static policy table (`service_dependencies.py`) -/

/-- `ServiceConfig` dataclass of the centralized policy table. -/
structure ServiceConfig where
  name : String
  display_name : String
  description : String
  group : String
  dependencies : List String := []
  required : Bool := false
  default_enabled : Bool := true
  profiles : List String := []
  category : String := "optional"
deriving DecidableEq

/-- The compiled-in `SERVICE_CONFIGS` table, in source order. -/
def SERVICE_CONFIGS : List (String × ServiceConfig) :=
  [("vector",
    { name := "vector", display_name := "Vector",
      description := "Log aggregation for Supabase services", group := "supabase",
      dependencies := [], required := true, category := "core" }),
   ("db",
    { name := "db", display_name := "Database",
      description := "PostgreSQL database (Supabase)", group := "supabase",
      dependencies := ["vector"], required := true, category := "core" }),
   ("analytics",
    { name := "analytics", display_name := "Analytics",
      description := "Logflare analytics backend", group := "supabase",
      dependencies := ["db"], required := true, category := "core" }),
   ("kong",
    { name := "kong", display_name := "Kong API Gateway",
      description := "API gateway for Supabase services", group := "supabase",
      dependencies := ["analytics"], required := true, category := "core" }),
   ("auth",
    { name := "auth", display_name := "Auth (GoTrue)",
      description := "Authentication and user management", group := "supabase",
      dependencies := ["db", "analytics"], category := "infrastructure" }),
   ("rest",
    { name := "rest", display_name := "REST API (PostgREST)",
      description := "Auto-generated REST API from database", group := "supabase",
      dependencies := ["db", "analytics"], category := "infrastructure" }),
   ("realtime",
    { name := "realtime", display_name := "Realtime",
      description := "WebSocket subscriptions for database changes", group := "supabase",
      dependencies := ["db", "analytics"], category := "infrastructure" }),
   ("storage",
    { name := "storage", display_name := "Storage",
      description := "File storage with S3-compatible API", group := "supabase",
      dependencies := ["db", "rest", "imgproxy"], category := "infrastructure" }),
   ("imgproxy",
    { name := "imgproxy", display_name := "Image Proxy",
      description := "On-the-fly image processing", group := "supabase",
      dependencies := [], category := "infrastructure" }),
   ("meta",
    { name := "meta", display_name := "Postgres Meta",
      description := "Database metadata API", group := "supabase",
      dependencies := ["db", "analytics"], category := "infrastructure" }),
   ("functions",
    { name := "functions", display_name := "Edge Functions",
      description := "Serverless Deno functions", group := "supabase",
      dependencies := ["analytics"], category := "optional" }),
   ("studio",
    { name := "studio", display_name := "Studio",
      description := "Supabase dashboard UI", group := "supabase",
      dependencies := ["analytics"], category := "optional" }),
   ("supavisor",
    { name := "supavisor", display_name := "Supavisor (Pooler)",
      description := "Connection pooler for PostgreSQL", group := "supabase",
      dependencies := ["db", "analytics"], category := "infrastructure" }),
   ("ollama-cpu",
    { name := "ollama-cpu", display_name := "Ollama (CPU)",
      description := "Local LLM inference on CPU", group := "core_ai",
      dependencies := [], profiles := ["cpu"], category := "optional" }),
   ("ollama-gpu",
    { name := "ollama-gpu", display_name := "Ollama (NVIDIA GPU)",
      description := "Local LLM inference with NVIDIA CUDA", group := "core_ai",
      dependencies := [], profiles := ["gpu-nvidia"], category := "optional" }),
   ("ollama-gpu-amd",
    { name := "ollama-gpu-amd", display_name := "Ollama (AMD GPU)",
      description := "Local LLM inference with AMD ROCm", group := "core_ai",
      dependencies := [], profiles := ["gpu-amd"], category := "optional" }),
   ("open-webui",
    { name := "open-webui", display_name := "Open WebUI",
      description := "Chat interface for LLMs", group := "core_ai",
      dependencies := [], category := "optional" }),
   ("flowise",
    { name := "flowise", display_name := "Flowise",
      description := "Visual LLM flow builder", group := "core_ai",
      dependencies := [], category := "optional" }),
   ("n8n-import",
    { name := "n8n-import", display_name := "n8n Import",
      description := "Import default workflows (runs once)", group := "workflow",
      dependencies := ["db"], category := "infrastructure" }),
   ("n8n",
    { name := "n8n", display_name := "n8n",
      description := "Workflow automation platform", group := "workflow",
      dependencies := ["n8n-import"], category := "optional" }),
   ("qdrant",
    { name := "qdrant", display_name := "Qdrant",
      description := "Vector database for embeddings", group := "database",
      dependencies := [], category := "optional" }),
   ("neo4j",
    { name := "neo4j", display_name := "Neo4j",
      description := "Graph database", group := "database",
      dependencies := [], category := "optional" }),
   ("postgres",
    { name := "postgres", display_name := "Postgres (Langfuse)",
      description := "PostgreSQL for Langfuse", group := "observability",
      dependencies := [], category := "infrastructure" }),
   ("redis",
    { name := "redis", display_name := "Redis/Valkey",
      description := "In-memory cache and message broker", group := "infrastructure",
      dependencies := [], category := "infrastructure" }),
   ("clickhouse",
    { name := "clickhouse", display_name := "ClickHouse",
      description := "Analytics database for Langfuse", group := "observability",
      dependencies := [], category := "infrastructure" }),
   ("minio",
    { name := "minio", display_name := "MinIO",
      description := "S3-compatible object storage for Langfuse", group := "observability",
      dependencies := [], category := "infrastructure" }),
   ("langfuse-worker",
    { name := "langfuse-worker", display_name := "Langfuse Worker",
      description := "Background worker for Langfuse", group := "observability",
      dependencies := ["postgres", "minio", "redis", "clickhouse"], category := "optional" }),
   ("langfuse-web",
    { name := "langfuse-web", display_name := "Langfuse",
      description := "LLM observability and tracing", group := "observability",
      dependencies := ["postgres", "minio", "redis", "clickhouse"], category := "optional" }),
   ("caddy",
    { name := "caddy", display_name := "Caddy",
      description := "Reverse proxy with automatic HTTPS", group := "infrastructure",
      dependencies := [], required := true, category := "core" }),
   ("searxng",
    { name := "searxng", display_name := "SearXNG",
      description := "Privacy-respecting metasearch engine", group := "infrastructure",
      dependencies := [], category := "optional" })]

/-- `SERVICE_CONFIGS.get(name)`. -/
def lookupConfig (name : String) : Option ServiceConfig :=
  (SERVICE_CONFIGS.find? (fun p => p.1 == name)).map (fun p => p.2)

/-- Names of the policy entries with `required = true`. -/
def requiredNames : List String :=
  (SERVICE_CONFIGS.filter (fun p => p.2.required)).map (fun p => p.1)

/-- `get_all_dependencies` of the policy table, with its visited-set guard.
The recursion depth is bounded by the number of table entries not yet
visited, so the structural fuel `|SERVICE_CONFIGS| + 1` used by the wrapper
below can never run out (`allDepsGo_fuel_stable`). -/
def allDepsGo : Nat → String → List String → List String
  | 0, _, _ => []
  | fuel+1, service_name, visited =>
    if visited.contains service_name then []
    else
      match lookupConfig service_name with
      | none => []
      | some config =>
        let direct := config.dependencies.dedup
        direct.foldl
          (fun deps dep => unionAppend deps (allDepsGo fuel dep (service_name :: visited)))
          direct

/-- `get_all_dependencies(service_name, visited)` (default `visited = set()`
is the empty list). -/
def get_all_dependencies (service_name : String) (visited : List String) : List String :=
  allDepsGo (SERVICE_CONFIGS.length + 1) service_name visited

/-- `required.setdefault`-style update of `get_required_for_selection`:
append the requesting service to the entry of `dep`, creating it at the end
when absent (dict insertion order). -/
def dictAppend (d : List (String × List String)) (k v : String) :
    List (String × List String) :=
  if d.any (fun p => p.1 == k) then
    d.map (fun p => if p.1 == k then (p.1, p.2 ++ [v]) else p)
  else d ++ [(k, [v])]

/-- Dict lookup on an association list (first match). -/
def dictLookup {α : Type} (d : List (String × α)) (k : String) : Option α :=
  (d.find? (fun p => p.1 == k)).map (fun p => p.2)

/-- The keys of a dict. -/
def keysOf {α : Type} (d : List (String × α)) : List String :=
  d.map (fun p => p.1)

/-- First loop of `get_required_for_selection`: record every selected service
as a requester of each of its transitive dependencies. -/
def requiredDepsFold (selected : List String) : List (String × List String) :=
  selected.foldl
    (fun req service =>
      (get_all_dependencies service []).foldl
        (fun req2 dep => dictAppend req2 dep service) req)
    []

/-- Second loop: add every `required = true` policy entry not already
present, tagged `"(core infrastructure)"`. -/
def requiredCoreFold (req0 : List (String × List String)) : List (String × List String) :=
  SERVICE_CONFIGS.foldl
    (fun req p =>
      if p.2.required && !(req.any (fun q => q.1 == p.1)) then
        req ++ [(p.1, ["(core infrastructure)"])]
      else req)
    req0

/-- `get_required_for_selection`: the map from each required service to the
list of selected services that need it. -/
def get_required_for_selection (selected : List String) : List (String × List String) :=
  requiredCoreFold (requiredDepsFold selected)

/-- One entry of the `auto_enabled` map of `validate_selection`. -/
structure AutoEnabledEntry where
  reason : String
  required_by : List String
deriving DecidableEq

/-- The dictionary returned by `validate_selection`. -/
structure SelectionValidation where
  valid : Bool
  errors : List String
  warnings : List String
  auto_enabled : List (String × AutoEnabledEntry)
  total_services : Nat
deriving DecidableEq

/-- Python `repr` of a list of strings as interpolated by an f-string. -/
def pyListRepr (l : List String) : String :=
  "[" ++ String.intercalate ", " (l.map (fun s => "\x27" ++ s ++ "\x27")) ++ "]"

/-- Text of a profile-mismatch warning. -/
def profileWarningText (c : ServiceConfig) (profile : String) : String :=
  c.display_name ++ " requires profile " ++ pyListRepr c.profiles ++ ", but " ++
    profile ++ " was selected"

/-- Boolean test matching the warning condition of `validate_selection`:
the service has a policy entry with a nonempty profile set that excludes the
given profile, and the profile is not the wildcard `"none"`. -/
def profileMismatch (profile service : String) : Bool :=
  match lookupConfig service with
  | some config =>
    !config.profiles.isEmpty && !(config.profiles.contains profile) && !(profile == "none")
  | none => false

/-- One `required.items()` step of the `auto_enabled` loop of
`validate_selection`: a dependency not already selected whose policy entry
exists is auto-enabled with its reason line (first three requesters). -/
def autoStep (selected : List String) (auto : List (String × AutoEnabledEntry))
    (p : String × List String) : List (String × AutoEnabledEntry) :=
  if !(selected.contains p.1) then
    match lookupConfig p.1 with
    | some _ =>
      auto ++ [(p.1,
        { reason := "Required by: " ++ String.intercalate ", " (p.2.take 3),
          required_by := p.2 })]
    | none => auto
  else auto

/-- One step of the warning loop of `validate_selection`. -/
def warnStep (profile : String) (ws : List String) (service : String) : List String :=
  match lookupConfig service with
  | some config =>
    if !config.profiles.isEmpty then
      if !(config.profiles.contains profile) && !(profile == "none") then
        ws ++ [profileWarningText config profile]
      else ws
    else ws
  | none => ws

/-- `validate_selection(selected, profile)`. -/
def validate_selection (selected : List String) (profile : String) : SelectionValidation :=
  let errors : List String := []
  let required := get_required_for_selection selected
  let auto_enabled := required.foldl (autoStep selected) []
  let warnings := selected.foldl (warnStep profile) []
  { valid := errors.length == 0, errors := errors, warnings := warnings,
    auto_enabled := auto_enabled,
    total_services := selected.length + auto_enabled.length }

/-! ### The topology loader (`compose_parser.py`) -/

/-- One value of a `depends_on` mapping: either a non-dict value or a dict
with an optional `condition` key. -/
inductive DepEntryRaw where
  | plain : DepEntryRaw
  | withCondition : Option String → DepEntryRaw
deriving DecidableEq

/-- A raw `depends_on` section: bare list or detailed map. -/
inductive DependsOnRaw where
  | list : List String → DependsOnRaw
  | map : List (String × DepEntryRaw) → DependsOnRaw
deriving DecidableEq

/-- A raw port entry: plain string or `{published, target}` dict whose `get`
calls may return `None`. -/
inductive PortRaw where
  | str : String → PortRaw
  | dict : Option String → Option String → PortRaw
deriving DecidableEq

/-- A raw `environment` section: `KEY=VALUE` list, key/value map, or any
other shape (contributing nothing). -/
inductive EnvRaw where
  | list : List String → EnvRaw
  | map : List (String × String) → EnvRaw
  | other : EnvRaw
deriving DecidableEq

/-- The raw config dict of one service entry. -/
structure RawService where
  image : Option String := none
  profiles : List String := []
  depends_on : Option DependsOnRaw := none
  healthcheck : Bool := false
  ports : List PortRaw := []
  environment : Option EnvRaw := none
deriving DecidableEq

/-- A source document as seen by `_parse_file`: a YAML parse error, a
document that is empty or has no `services` section, or a service map whose
entries carry `none` when the per-service config is not a dict. -/
inductive Document where
  | malformed : Document
  | empty : Document
  | withServices : List (String × Option RawService) → Document

/-- Normalization of `depends_on` (bare list gets condition
`service_started`; map entries read `condition` with that default). -/
def normalizeDepends : Option DependsOnRaw → List (String × String)
  | none => []
  | some (.list ds) => ds.map (fun d => (d, "service_started"))
  | some (.map m) =>
    m.map (fun p => (p.1,
      match p.2 with
      | .plain => "service_started"
      | .withCondition none => "service_started"
      | .withCondition (some c) => c))

/-- Python interpolation of an optional value (`None` prints as `"None"`). -/
def pyOptStr : Option String → String
  | none => "None"
  | some s => s

/-- Normalization of one port entry into `"published:target"` form. -/
def normalizePort : PortRaw → String
  | .str s => s
  | .dict published target => pyOptStr published ++ ":" ++ pyOptStr target

/-- Dict assignment: replace the value in place when the key exists, append
otherwise (Python dict update semantics). -/
def dictSet {α : Type} (d : List (String × α)) (k : String) (v : α) : List (String × α) :=
  if d.any (fun p => p.1 == k) then
    d.map (fun p => if p.1 == k then (p.1, v) else p)
  else d ++ [(k, v)]

/-- `_extract_env` on one list item: split on the first `=`, a bare key maps
to the empty string. -/
def envOfItem (s : String) : String × String :=
  match s.splitOn "=" with
  | [] => (s, "")
  | [k] => (k, "")
  | k :: rest => (k, String.intercalate "=" rest)

/-- `_extract_env`: list and map forms; anything else contributes nothing. -/
def extractEnv : Option EnvRaw → List (String × String)
  | some (.list items) =>
    items.foldl (fun result item => dictSet result (envOfItem item).1 (envOfItem item).2) []
  | some (.map entries) =>
    entries.foldl (fun result p => dictSet result p.1 p.2) []
  | some .other => []
  | none => []

/-- Construction of the normalized `ServiceDefinition` from one raw entry of
a document tagged `source`. -/
def buildServiceDefinition (name source : String) (raw : RawService) : ServiceDefinition :=
  { name := name
    image := (match raw.image with | some i => i | none => "")
    compose_file := source
    profiles := raw.profiles
    depends_on := normalizeDepends raw.depends_on
    has_healthcheck := raw.healthcheck
    ports := raw.ports.map normalizePort
    environment := extractEnv raw.environment }

/-- `_parse_file`: merge the entries of one document into the registry.  A
malformed document or one without services contributes nothing; a non-dict
service config is skipped. -/
def parse_file (registry : Registry) (doc : Document) (source : String) : Registry :=
  match doc with
  | .malformed => registry
  | .empty => registry
  | .withServices svcs =>
    svcs.foldl
      (fun reg p =>
        match p.2 with
        | none => reg
        | some raw => dictSet reg p.1 (buildServiceDefinition p.1 source raw))
      registry

/-- `_parse_all`: the main compose document first (when the file exists),
then the Supabase document, later entries overwriting earlier ones. -/
def parse_all (main supabase : Option Document) : Registry :=
  let r1 := match main with
    | some d => parse_file [] d "main"
    | none => []
  match supabase with
  | some d => parse_file r1 d "supabase"
  | none => r1

/-- The last dict-shaped definition of `name` inside a service list (the one
that survives the in-order dict assignments). -/
def lastDef : List (String × Option RawService) → String → Option RawService
  | [], _ => none
  | (n, cfg) :: rest, name =>
    match lastDef rest name with
    | some r => some r
    | none => if n == name then (match cfg with | some raw => some raw | none => none) else none

/-! ### Basic lemmas about the registry embedding -/

theorem contains_iff_mem {l : List String} {a : String} :
    l.contains a = true ↔ a ∈ l := by
  simp [List.contains, List.elem_iff]

theorem lookupService_mem {registry : Registry} {v : String} {sd : ServiceDefinition}
    (h : lookupService registry v = some sd) : (v, sd) ∈ registry := by
  unfold lookupService at h
  rcases hfind : registry.find? (fun p => p.1 == v) with _ | p
  · rw [hfind] at h; simp at h
  · rw [hfind] at h
    have hp : p.1 = v := by simpa using List.find?_some hfind
    have hmem := List.mem_of_find?_eq_some hfind
    have hsd : p.2 = sd := by simpa using h
    obtain ⟨a, b⟩ := p
    simp only at hp hsd
    rw [← hp, ← hsd]
    exact hmem

theorem mem_keys_of_lookupService {registry : Registry} {v : String} {sd : ServiceDefinition}
    (h : lookupService registry v = some sd) : v ∈ registryKeys registry := by
  have := lookupService_mem h
  exact List.mem_map_of_mem (fun p => p.1) this

theorem lookupService_eq_none {registry : Registry} {v : String}
    (h : v ∉ registryKeys registry) : lookupService registry v = none := by
  rcases hl : lookupService registry v with _ | sd
  · rfl
  · exact absurd (mem_keys_of_lookupService hl) h

theorem depNamesOf_eq_of_lookup {registry : Registry} {v : String} {sd : ServiceDefinition}
    (h : lookupService registry v = some sd) : depNamesOf registry v = depNames sd := by
  simp [depNamesOf, h]

theorem depNamesOf_eq_nil {registry : Registry} {v : String}
    (h : v ∉ registryKeys registry) : depNamesOf registry v = [] := by
  simp [depNamesOf, lookupService_eq_none h]

theorem depsSatisfied_of_unknown {registry : Registry} {resolved : List String} {v : String}
    (h : v ∉ registryKeys registry) : depsSatisfied registry resolved v = true := by
  simp [depsSatisfied, lookupService_eq_none h]

theorem depsSatisfied_eq_false {registry : Registry} {resolved : List String} {v : String}
    (h : depsSatisfied registry resolved v = false) :
    ∃ d ∈ depNamesOf registry v, d ∉ resolved := by
  rcases hl : lookupService registry v with _ | sd
  · simp [depsSatisfied, hl] at h
  · simp only [depsSatisfied, hl] at h
    rw [depNamesOf_eq_of_lookup hl]
    obtain ⟨d, hd, hdc⟩ := List.all_eq_false.mp h
    exact ⟨d, hd, fun hmem => hdc (contains_iff_mem.mpr hmem)⟩

theorem depsSatisfied_eq_true {registry : Registry} {resolved : List String} {v : String}
    (h : depsSatisfied registry resolved v = true) :
    ∀ d ∈ depNamesOf registry v, d ∈ resolved := by
  intro d hd
  rcases hl : lookupService registry v with _ | sd
  · simp [depNamesOf, hl] at hd
  · simp only [depNamesOf, hl] at hd
    simp only [depsSatisfied, hl] at h
    exact contains_iff_mem.mp ((List.all_eq_true.mp h) d hd)

theorem depRel_elim {registry : Registry} {a b : String} (h : depRel registry a b) :
    ∃ p ∈ registry, p.1 = a ∧ b ∈ depNames p.2 := by
  unfold depRel at h
  unfold depNamesOf at h
  rcases hl : lookupService registry a with _ | sd
  · rw [hl] at h; exact absurd h (List.not_mem_nil b)
  · rw [hl] at h
    exact ⟨(a, sd), lookupService_mem hl, rfl, h⟩

theorem acyclic_of_rank (registry : Registry) (rank : String → Nat)
    (h : ∀ a b, depRel registry a b → rank b < rank a) : AcyclicRegistry registry := by
  intro s hs
  have key : ∀ x y, Relation.TransGen (depRel registry) x y → rank y < rank x := by
    intro x y hxy
    induction hxy with
    | single h1 => exact h _ _ h1
    | tail _ h2 ih => exact lt_trans (h _ _ h2) ih
  exact lt_irrefl _ (key s s hs)

/-! ### A finite set in which every element has a successor contains a cycle -/

theorem exists_transGen_cycle {R : String → String → Prop} {l : List String}
    (hne : l ≠ []) (hsucc : ∀ x ∈ l, ∃ y ∈ l, R x y) :
    ∃ x ∈ l, Relation.TransGen R x x := by
  classical
  obtain ⟨x0, hx0⟩ := List.exists_mem_of_ne_nil l hne
  have hmem : ∀ x : {x // x ∈ l.toFinset}, (x : String) ∈ l := fun x =>
    List.mem_toFinset.mp x.2
  choose f hf1 hf2 using fun (x : {x // x ∈ l.toFinset}) => hsucc x.1 (hmem x)
  let g : {x // x ∈ l.toFinset} → {x // x ∈ l.toFinset} := fun x =>
    ⟨f x, List.mem_toFinset.mpr (hf1 x)⟩
  have hg : ∀ x, R x.1 (g x).1 := fun x => hf2 x
  have hiter : ∀ k (x : {x // x ∈ l.toFinset}), Relation.TransGen R x.1 ((g^[k+1]) x).1 := by
    intro k
    induction k with
    | zero =>
      intro x
      simpa using Relation.TransGen.single (hg x)
    | succ k ih =>
      intro x
      rw [Function.iterate_succ_apply']
      exact (ih x).tail (hg _)
  set x0' : {x // x ∈ l.toFinset} := ⟨x0, List.mem_toFinset.mpr hx0⟩ with hx0'
  have key : ∀ m n : ℕ, m < n → g^[m] x0' = g^[n] x0' →
      ∃ x ∈ l, Relation.TransGen R x x := by
    intro m n hlt he
    have h1 : g^[n] x0' = g^[(n - m - 1) + 1] (g^[m] x0') := by
      rw [← Function.iterate_add_apply]
      congr 1
      omega
    refine ⟨(g^[m] x0').1, hmem _, ?_⟩
    have h2 := hiter (n - m - 1) (g^[m] x0')
    rw [← h1, ← he] at h2
    exact h2
  obtain ⟨m, n, hmn, heq⟩ := Finite.exists_ne_map_eq_of_infinite (fun k : ℕ => g^[k] x0')
  rcases lt_or_gt_of_ne hmn with h | h
  · exact key m n h heq
  · exact key n m h heq.symm

/-! ### Structural lemmas about the batching loop -/

theorem startOrderGo_extends (registry : Registry) :
    ∀ fuel remaining resolved result res,
    startOrderGo registry fuel remaining resolved result = .ok res →
    ∃ tail, res = result ++ tail := by
  intro fuel
  induction fuel with
  | zero =>
    intro remaining resolved result res h
    simp only [startOrderGo] at h
    exact ⟨[], by simp [← Except.ok.inj h]⟩
  | succ fuel ih =>
    intro remaining resolved result res h
    simp only [startOrderGo] at h
    by_cases hrem : remaining.isEmpty
    · rw [if_pos hrem] at h
      exact ⟨[], by simp [← Except.ok.inj h]⟩
    · rw [if_neg hrem] at h
      by_cases hb : (passBatch registry resolved remaining).isEmpty
      · rw [if_pos hb] at h
        exact absurd h (by simp)
      · rw [if_neg hb] at h
        obtain ⟨tail, ht⟩ := ih _ _ _ _ h
        exact ⟨List.insertionSort (fun a b => a ≤ b) (passBatch registry resolved remaining) :: tail,
          by rw [ht]; simp⟩

theorem orderedPlan_append {registry : Registry} {sel : List String}
    {result : List (List String)} {b : List String}
    (hres : OrderedPlan registry sel result)
    (hb : ∀ v ∈ b, ∀ d ∈ depNamesOf registry v, d ∈ sel → d ∈ result.flatten) :
    OrderedPlan registry sel (result ++ [b]) := by
  intro i hi v hv d hd hdsel
  rcases Nat.lt_or_ge i result.length with hlt | hge
  · rw [List.getElem_append_left hlt] at hv
    have hmem := hres i hlt v hv d hd hdsel
    rw [List.take_append_eq_append_take]
    have h0 : i - result.length = 0 := by omega
    rw [h0]
    simpa using hmem
  · have hlen : i < result.length + 1 := by simpa using hi
    have hie : i = result.length := by omega
    have hvb : v ∈ b := by
      rw [List.getElem_append_right hge] at hv
      simpa [hie] using hv
    have hmem := hb v hvb d hd hdsel
    rw [List.take_append_eq_append_take]
    rw [List.take_of_length_le (by omega)]
    simp only [List.flatten_append, List.mem_append]
    exact Or.inl hmem

theorem startOrderGo_ok_spec (registry : Registry) (sel : List String) :
    ∀ fuel remaining resolved result res,
    startOrderGo registry fuel remaining resolved result = .ok res →
    remaining.length < fuel →
    remaining.Nodup →
    (∀ s ∈ remaining, s ∈ sel) →
    (∀ s ∈ remaining, s ∉ result.flatten) →
    (∀ s ∈ remaining, s ∉ resolved) →
    (∀ b ∈ result, ∀ s ∈ b, s ∈ sel) →
    result.flatten.Nodup →
    (∀ b ∈ result, List.Sorted (fun a b => a ≤ b) b) →
    (∀ d ∈ resolved, d ∈ sel → d ∈ result.flatten) →
    OrderedPlan registry sel result →
    (∀ s, s ∈ res.flatten ↔ s ∈ result.flatten ∨ s ∈ remaining) ∧
    res.flatten.Nodup ∧
    (∀ b ∈ res, List.Sorted (fun a b => a ≤ b) b) ∧
    (∀ b ∈ res, ∀ s ∈ b, s ∈ sel) ∧
    OrderedPlan registry sel res := by
  intro fuel
  induction fuel with
  | zero =>
    intro remaining resolved result res h hfuel hnd hsel hresF hresolved hbatchSel hndF hsorted hresolvedSel hord
    exact absurd hfuel (Nat.not_lt_zero _)
  | succ fuel ih =>
    intro remaining resolved result res h hfuel hnd hsel hresF hresolved hbatchSel hndF hsorted hresolvedSel hord
    simp only [startOrderGo] at h
    by_cases hrem : remaining.isEmpty
    · rw [if_pos hrem] at h
      have hre : remaining = [] := List.isEmpty_iff.mp hrem
      have hres' : res = result := (Except.ok.inj h).symm
      subst hres'
      subst hre
      exact ⟨fun s => by simp, hndF, hsorted, hbatchSel, hord⟩
    · rw [if_neg hrem] at h
      by_cases hb : (passBatch registry resolved remaining).isEmpty
      · rw [if_pos hb] at h
        exact absurd h (by simp)
      · rw [if_neg hb] at h
        set B := passBatch registry resolved remaining with hB
        set SB := List.insertionSort (fun a b => a ≤ b) B with hSB
        have hBsub : ∀ s ∈ B, s ∈ remaining := fun s hs => (List.mem_filter.mp hs).1
        have hBsat : ∀ s ∈ B, depsSatisfied registry resolved s = true :=
          fun s hs => (List.mem_filter.mp hs).2
        have hBne : B ≠ [] := fun hnil => by simp [hnil] at hb
        have hBnd : B.Nodup := hnd.filter _
        have hperm : SB.Perm B := List.perm_insertionSort (fun a b => a ≤ b) B
        have hSmem : ∀ s, s ∈ SB ↔ s ∈ B := fun s => hperm.mem_iff
        have hFl : (result ++ [SB]).flatten = result.flatten ++ SB := by
          simp [List.flatten_append]
        have hlen' : (remaining.filter (fun s => !(B.contains s))).length < fuel := by
          have h1 : (remaining.filter (fun s => !(B.contains s))).length < remaining.length := by
            rw [List.length_filter_lt_length_iff_exists]
            obtain ⟨x, hx⟩ := List.exists_mem_of_ne_nil B hBne
            exact ⟨x, hBsub x hx, by simp [hx]⟩
          omega
        have hmemF : ∀ s, s ∈ remaining.filter (fun t => !(B.contains t)) ↔ s ∈ remaining ∧ s ∉ B := by
          intro s
          rw [List.mem_filter]
          constructor
          · rintro ⟨h1, h2⟩
            refine ⟨h1, fun hsB => ?_⟩
            rw [contains_iff_mem.mpr hsB] at h2
            simp at h2
          · rintro ⟨h1, h2⟩
            refine ⟨h1, ?_⟩
            rcases hc : B.contains s with _ | _
            · simp
            · exact absurd (contains_iff_mem.mp hc) h2
        obtain ⟨hiff, hnodup2, hsort2, hsel2, hord2⟩ :=
          ih (remaining.filter (fun s => !(B.contains s))) (resolved ++ B) (result ++ [SB]) res h
            hlen'
            (hnd.filter _)
            (fun s hs => hsel s ((hmemF s).mp hs).1)
            (fun s hs => by
              obtain ⟨h1, h2⟩ := (hmemF s).mp hs
              rw [hFl]
              intro hmem
              rcases List.mem_append.mp hmem with h3 | h3
              · exact hresF s h1 h3
              · exact h2 ((hSmem s).mp h3))
            (fun s hs => by
              obtain ⟨h1, h2⟩ := (hmemF s).mp hs
              intro hmem
              rcases List.mem_append.mp hmem with h3 | h3
              · exact hresolved s h1 h3
              · exact h2 h3)
            (fun b hbm s hs => by
              rcases List.mem_append.mp hbm with h3 | h3
              · exact hbatchSel b h3 s hs
              · have : b = SB := by simpa using h3
                subst this
                exact hsel s (hBsub s ((hSmem s).mp hs)))
            (by
              rw [hFl]
              rw [List.nodup_append]
              refine ⟨hndF, hperm.nodup_iff.mpr hBnd, ?_⟩
              intro a ha haSB
              exact hresF a (hBsub a ((hSmem a).mp haSB)) ha)
            (fun b hbm => by
              rcases List.mem_append.mp hbm with h3 | h3
              · exact hsorted b h3
              · have : b = SB := by simpa using h3
                subst this
                exact List.sorted_insertionSort _ _)
            (fun d hd hdsel => by
              rw [hFl]
              rcases List.mem_append.mp hd with h3 | h3
              · exact List.mem_append.mpr (Or.inl (hresolvedSel d h3 hdsel))
              · exact List.mem_append.mpr (Or.inr ((hSmem d).mpr h3)))
            (orderedPlan_append hord (fun v hv d hd hdsel => by
              have hvB := (hSmem v).mp hv
              have hsat := hBsat v hvB
              have hdres := depsSatisfied_eq_true hsat d hd
              exact hresolvedSel d hdres hdsel))
        refine ⟨?_, hnodup2, hsort2, hsel2, hord2⟩
        intro s
        rw [hiff s]
        constructor
        · rintro (hs | hs)
          · rw [hFl] at hs
            rcases List.mem_append.mp hs with h3 | h3
            · exact Or.inl h3
            · exact Or.inr (hBsub s ((hSmem s).mp h3))
          · exact Or.inr ((hmemF s).mp hs).1
        · rintro (hs | hs)
          · exact Or.inl (by rw [hFl]; exact List.mem_append.mpr (Or.inl hs))
          · by_cases hsB : s ∈ B
            · exact Or.inl (by rw [hFl]; exact List.mem_append.mpr (Or.inr ((hSmem s).mpr hsB)))
            · exact Or.inr ((hmemF s).mpr ⟨hs, hsB⟩)

theorem startOrderGo_total (registry : Registry)
    (hclosed : ClosedRegistry registry) (hacyclic : AcyclicRegistry registry) :
    ∀ fuel remaining resolved result,
    remaining.length < fuel →
    (∀ k ∈ registryKeys registry, k ∈ resolved ∨ k ∈ remaining) →
    ∃ res, startOrderGo registry fuel remaining resolved result = .ok res := by
  intro fuel
  induction fuel with
  | zero =>
    intro remaining resolved result hfuel hkeys
    exact absurd hfuel (Nat.not_lt_zero _)
  | succ fuel ih =>
    intro remaining resolved result hfuel hkeys
    by_cases hrem : remaining.isEmpty
    · exact ⟨result, by simp [startOrderGo, hrem]⟩
    · have hremne : remaining ≠ [] := fun hnil => by simp [hnil] at hrem
      set B := passBatch registry resolved remaining with hB
      have hBne : ¬ B.isEmpty := by
        intro hBe
        have hBnil : B = [] := List.isEmpty_iff.mp hBe
        have hall : ∀ r ∈ remaining, depsSatisfied registry resolved r = false := by
          intro r hr
          have := List.filter_eq_nil_iff.mp hBnil r hr
          rcases hds : depsSatisfied registry resolved r with _ | _
          · rfl
          · exact absurd hds this
        have hsucc : ∀ r ∈ remaining, ∃ d ∈ remaining, depRel registry r d := by
          intro r hr
          obtain ⟨d, hd, hdres⟩ := depsSatisfied_eq_false (hall r hr)
          have hdk : d ∈ registryKeys registry := by
            obtain ⟨p, hp, hp1, hp2⟩ := depRel_elim (show depRel registry r d from hd)
            exact hclosed p hp d hp2
          rcases hkeys d hdk with hc | hc
          · exact absurd hc hdres
          · exact ⟨d, hc, hd⟩
        obtain ⟨x, _, hcyc⟩ := exists_transGen_cycle hremne hsucc
        exact hacyclic x hcyc
      have hBne' : B ≠ [] := fun hnil => hBne (by simp [hnil])
      have hBsub : ∀ s ∈ B, s ∈ remaining := fun s hs => (List.mem_filter.mp hs).1
      have hlen' : (remaining.filter (fun s => !(B.contains s))).length < fuel := by
        have h1 : (remaining.filter (fun s => !(B.contains s))).length < remaining.length := by
          rw [List.length_filter_lt_length_iff_exists]
          obtain ⟨x, hx⟩ := List.exists_mem_of_ne_nil B hBne'
          exact ⟨x, hBsub x hx, by simp [hx]⟩
        omega
      have hkeys' : ∀ k ∈ registryKeys registry,
          k ∈ resolved ++ B ∨ k ∈ remaining.filter (fun s => !(B.contains s)) := by
        intro k hk
        rcases hkeys k hk with hc | hc
        · exact Or.inl (List.mem_append.mpr (Or.inl hc))
        · by_cases hkB : k ∈ B
          · exact Or.inl (List.mem_append.mpr (Or.inr hkB))
          · refine Or.inr (List.mem_filter.mpr ⟨hc, ?_⟩)
            simp [contains_iff_mem, hkB]
      obtain ⟨res, hres⟩ := ih (remaining.filter (fun s => !(B.contains s))) (resolved ++ B)
        (result ++ [List.insertionSort (fun a b => a ≤ b) B]) hlen' hkeys'
      refine ⟨res, ?_⟩
      simp only [startOrderGo]
      rw [if_neg hrem, if_neg hBne]
      exact hres

theorem startOrderGo_stuck (registry : Registry) (Dead : String → Prop)
    (B : List String) (hBne : B ≠ [])
    (hblock : ∀ v ∈ B, ∃ d, d ∈ depNamesOf registry v ∧ (d ∈ B ∨ Dead d)) :
    ∀ fuel remaining resolved result,
    remaining.length < fuel →
    (∀ v ∈ B, v ∈ remaining) →
    (∀ x ∈ remaining, x ∉ resolved) →
    (∀ d, Dead d → d ∉ resolved) →
    (∀ d, Dead d → d ∉ remaining) →
    ∃ stuck, startOrderGo registry fuel remaining resolved result = .error stuck ∧
      ∀ v ∈ B, v ∈ stuck := by
  intro fuel
  induction fuel with
  | zero =>
    intro remaining resolved result hfuel
    exact absurd hfuel (Nat.not_lt_zero _)
  | succ fuel ih =>
    intro remaining resolved result hfuel hBrem hdisj hdeadres hdeadrem
    obtain ⟨v0, hv0⟩ := List.exists_mem_of_ne_nil B hBne
    have hremne : remaining ≠ [] := fun hnil => by
      have := hBrem v0 hv0
      rw [hnil] at this
      exact List.not_mem_nil v0 this
    have hrem : ¬ remaining.isEmpty := by
      intro hre
      exact hremne (List.isEmpty_iff.mp hre)
    set P := passBatch registry resolved remaining with hP
    have hBnotbatch : ∀ v ∈ B, v ∉ P := by
      intro v hv hvP
      have hsat := (List.mem_filter.mp hvP).2
      obtain ⟨d, hd, hdBD⟩ := hblock v hv
      have hdres : d ∈ resolved := depsSatisfied_eq_true hsat d hd
      rcases hdBD with hdB | hdD
      · exact hdisj d (hBrem d hdB) hdres
      · exact hdeadres d hdD hdres
    by_cases hPb : P.isEmpty
    · refine ⟨remaining, ?_, hBrem⟩
      simp only [startOrderGo]
      rw [if_neg hrem, if_pos hPb]
    · have hPsub : ∀ s ∈ P, s ∈ remaining := fun s hs => (List.mem_filter.mp hs).1
      have hPne : P ≠ [] := fun hnil => hPb (by simp [hnil])
      have hlen' : (remaining.filter (fun s => !(P.contains s))).length < fuel := by
        have h1 : (remaining.filter (fun s => !(P.contains s))).length < remaining.length := by
          rw [List.length_filter_lt_length_iff_exists]
          obtain ⟨x, hx⟩ := List.exists_mem_of_ne_nil P hPne
          exact ⟨x, hPsub x hx, by simp [hx]⟩
        omega
      obtain ⟨stuck, hstuck, hBstuck⟩ :=
        ih (remaining.filter (fun s => !(P.contains s))) (resolved ++ P)
          (result ++ [List.insertionSort (fun a b => a ≤ b) P]) hlen'
          (fun v hv => List.mem_filter.mpr ⟨hBrem v hv, by simp [hBnotbatch v hv]⟩)
          (fun x hx => by
            obtain ⟨h1, h2⟩ := List.mem_filter.mp hx
            intro hmem
            rcases List.mem_append.mp hmem with h3 | h3
            · exact hdisj x h1 h3
            · rw [contains_iff_mem.mpr h3] at h2
              simp at h2)
          (fun d hd => by
            intro hmem
            rcases List.mem_append.mp hmem with h3 | h3
            · exact hdeadres d hd h3
            · exact hdeadrem d hd (hPsub d h3))
          (fun d hd => by
            intro hmem
            exact hdeadrem d hd (List.mem_filter.mp hmem).1)
      refine ⟨stuck, ?_, hBstuck⟩
      simp only [startOrderGo]
      rw [if_neg hrem, if_neg hPb]
      exact hstuck

theorem get_start_order_ok_spec {registry : Registry} {services : List String}
    {res : List (List String)} (h : get_start_order registry services = .ok res) :
    (∀ s, s ∈ res.flatten ↔ s ∈ services) ∧ res.flatten.Nodup ∧
    (∀ b ∈ res, List.Sorted (fun a b => a ≤ b) b) ∧
    (∀ b ∈ res, ∀ s ∈ b, s ∈ services) ∧ OrderedPlan registry services res := by
  have h' : startOrderGo registry (services.length + 1) services.dedup
      ((registryKeys registry).filter (fun svc => !(services.contains svc))) [] = .ok res := h
  have hlen : services.dedup.length < services.length + 1 :=
    Nat.lt_succ_of_le (List.Sublist.length_le (List.dedup_sublist services))
  obtain ⟨hiff, hnd, hsort, hsel, hord⟩ := startOrderGo_ok_spec registry services
    (services.length + 1) services.dedup
    ((registryKeys registry).filter (fun svc => !(services.contains svc))) [] res
    h' hlen (List.nodup_dedup services)
    (fun s hs => List.mem_dedup.mp hs)
    (fun s _ => by simp)
    (fun s hs hmem => by
      have h2 := (List.mem_filter.mp hmem).2
      rw [contains_iff_mem.mpr (List.mem_dedup.mp hs)] at h2
      simp at h2)
    (fun b hb => absurd hb (List.not_mem_nil b))
    (by simp)
    (fun b hb => absurd hb (List.not_mem_nil b))
    (fun d hd hdsel => by
      have h2 := (List.mem_filter.mp hd).2
      rw [contains_iff_mem.mpr hdsel] at h2
      simp at h2)
    (fun i hi => absurd hi (Nat.not_lt_zero i))
  exact ⟨fun s => by rw [hiff s]; simp [List.mem_dedup], hnd, hsort, hsel, hord⟩

/-- C1: for every edge-closed acyclic dependency registry and every selection,
`get_start_order` succeeds and returns batches whose union equals the
selection, which are pairwise disjoint, and in which every in-selection
dependency of a batched service appears in some strictly earlier batch. -/
theorem C1_start_order_batches_correct (registry : Registry) (services : List String)
    (hclosed : ClosedRegistry registry) (hacyclic : AcyclicRegistry registry) :
    ∃ batches, get_start_order registry services = .ok batches ∧
      (∀ s, s ∈ batches.flatten ↔ s ∈ services) ∧
      List.Pairwise List.Disjoint batches ∧
      (∀ i, ∀ hi : i < batches.length, ∀ v ∈ batches[i], ∀ d ∈ depNamesOf registry v,
        d ∈ services → ∃ j, ∃ hj : j < batches.length, j < i ∧ d ∈ batches[j]) := by
  have hlen : services.dedup.length < services.length + 1 :=
    Nat.lt_succ_of_le (List.Sublist.length_le (List.dedup_sublist services))
  have hkeys : ∀ k ∈ registryKeys registry,
      k ∈ (registryKeys registry).filter (fun svc => !(services.contains svc)) ∨
      k ∈ services.dedup := by
    intro k hk
    by_cases hks : k ∈ services
    · exact Or.inr (List.mem_dedup.mpr hks)
    · refine Or.inl (List.mem_filter.mpr ⟨hk, ?_⟩)
      simp [contains_iff_mem, hks]
  obtain ⟨res, hres⟩ := startOrderGo_total registry hclosed hacyclic
    (services.length + 1) services.dedup
    ((registryKeys registry).filter (fun svc => !(services.contains svc))) []
    hlen hkeys
  have hres' : get_start_order registry services = .ok res := hres
  obtain ⟨hiff, hnd, _, _, hord⟩ := get_start_order_ok_spec hres'
  refine ⟨res, hres', hiff, ((List.nodup_flatten).mp hnd).2, ?_⟩
  intro i hi v hv d hd hdsel
  have hmem := hord i hi v hv d hd hdsel
  obtain ⟨l, hl, hdl⟩ := List.mem_flatten.mp hmem
  obtain ⟨j, hj, hlj⟩ := List.mem_iff_getElem.mp hl
  have h2 : (res.take i).length = min i res.length := by simp
  have hjlen : j < res.length := by omega
  have hji : j < i := by omega
  refine ⟨j, hjlen, hji, ?_⟩
  rw [List.getElem_take] at hlj
  rw [hlj]
  exact hdl

/-- Witness for C1 at the specification example chain `A ← B ← C` with the
full selection.  Closedness is checked by evaluation and acyclicity via a
rank function decreasing along dependency edges. -/
theorem C1_start_order_batches_correct_witness :
    ∃ batches, get_start_order chainRegistry ["A", "B", "C"] = .ok batches ∧
      (∀ s, s ∈ batches.flatten ↔ s ∈ ["A", "B", "C"]) ∧
      List.Pairwise List.Disjoint batches ∧
      (∀ i, ∀ hi : i < batches.length, ∀ v ∈ batches[i], ∀ d ∈ depNamesOf chainRegistry v,
        d ∈ ["A", "B", "C"] → ∃ j, ∃ hj : j < batches.length, j < i ∧ d ∈ batches[j]) :=
  C1_start_order_batches_correct chainRegistry ["A", "B", "C"]
    (by unfold ClosedRegistry; decide)
    (acyclic_of_rank chainRegistry (fun s => if s = "A" then 0 else if s = "B" then 1 else 2)
      (by
        intro a b hab
        obtain ⟨p, hp, hp1, hp2⟩ := depRel_elim hab
        subst hp1
        simp only [chainRegistry, List.mem_cons, List.not_mem_nil, or_false] at hp
        rcases hp with hp | hp | hp
        · subst hp
          simp [depNames, mkService] at hp2
        · subst hp
          have hb : b = "A" := by simpa [depNames, mkService] using hp2
          subst hb
          decide
        · subst hp
          have hb : b = "B" := by simpa [depNames, mkService] using hp2
          subst hb
          decide))

/-- C2: whenever `get_start_order` returns normally, every selected service is
placed in some batch (never a partial plan); and for any nonempty subset of
the selection each of whose members has an in-selection dependency inside the
subset (the stuck subset generated by any dependency cycle), the call raises
the error, whose payload names at least that subset.  The pass bound
`|selection| + 1` can never be exceeded while progress is made, so no third
outcome exists. -/
theorem C2_cycle_error_and_no_partial_plan (registry : Registry) (services : List String) :
    (∀ res, get_start_order registry services = .ok res → ∀ s ∈ services, s ∈ res.flatten) ∧
    (∀ C, C ≠ [] → (∀ v ∈ C, v ∈ services) →
      (∀ v ∈ C, ∃ d, d ∈ depNamesOf registry v ∧ d ∈ C) →
      ∃ stuck, get_start_order registry services = .error stuck ∧ ∀ v ∈ C, v ∈ stuck) := by
  constructor
  · intro res hres s hs
    obtain ⟨hiff, _, _, _, _⟩ := get_start_order_ok_spec hres
    exact (hiff s).mpr hs
  · intro C hCne hCsel hCblock
    have hlen : services.dedup.length < services.length + 1 :=
      Nat.lt_succ_of_le (List.Sublist.length_le (List.dedup_sublist services))
    obtain ⟨stuck, hstuck, hmem⟩ := startOrderGo_stuck registry (fun _ => False) C hCne
      (fun v hv => (hCblock v hv).imp (fun d hd => ⟨hd.1, Or.inl hd.2⟩))
      (services.length + 1) services.dedup
      ((registryKeys registry).filter (fun svc => !(services.contains svc))) []
      hlen
      (fun v hv => List.mem_dedup.mpr (hCsel v hv))
      (fun x hx hxmem => by
        have h2 := (List.mem_filter.mp hxmem).2
        rw [contains_iff_mem.mpr (List.mem_dedup.mp hx)] at h2
        simp at h2)
      (fun d hd => hd.elim)
      (fun d hd => hd.elim)
    exact ⟨stuck, hstuck, hmem⟩

/-- Witness for C2: the full plan of the example chain covers the selection,
and the two-service cycle `a ↔ b` raises an error naming both members. -/
theorem C2_cycle_error_and_no_partial_plan_witness :
    (∀ s ∈ (["A", "B", "C"] : List String), s ∈ [["A"], ["B"], ["C"]].flatten) ∧
    (∃ stuck, get_start_order cyclicRegistry ["a", "b"] = .error stuck ∧
      ∀ v ∈ (["a", "b"] : List String), v ∈ stuck) :=
  ⟨(C2_cycle_error_and_no_partial_plan chainRegistry ["A", "B", "C"]).1
      [["A"], ["B"], ["C"]] rfl,
   (C2_cycle_error_and_no_partial_plan cyclicRegistry ["a", "b"]).2
      ["a", "b"] (by decide) (by decide) (by decide)⟩

/-- C4 counterexample: a selected service whose dependency names a service
absent from the registry (and from the selection) makes `get_start_order`
raise the stuck-subset error rather than complete. -/
theorem C4_counterexample_unknown_dep_not_tolerated :
    get_start_order ghostRegistry ["A"] = .error ["A"] ∧
    ∀ res, ¬ (get_start_order ghostRegistry ["A"] = .ok res) := by
  refine ⟨rfl, ?_⟩
  intro res h
  rw [show get_start_order ghostRegistry ["A"] = .error ["A"] from rfl] at h
  exact Except.noConfusion h

/-- C4 amended: an unknown dependency name is treated as resolved only when
that name is itself selected (it is then batched first as an unknown
service); when the unknown name is neither a registry key nor selected, the
dependent service can never be batched and `get_start_order` raises the
stuck-subset error naming it. -/
theorem C4_amended_unknown_dep_outside_selection_errors (registry : Registry)
    (services : List String) (v d : String)
    (hv : v ∈ services) (hd : d ∈ depNamesOf registry v)
    (hdk : d ∉ registryKeys registry) (hds : d ∉ services) :
    ∃ stuck, get_start_order registry services = .error stuck ∧ v ∈ stuck := by
  have hlen : services.dedup.length < services.length + 1 :=
    Nat.lt_succ_of_le (List.Sublist.length_le (List.dedup_sublist services))
  obtain ⟨stuck, hstuck, hmem⟩ := startOrderGo_stuck registry (fun x => x = d) [v]
    (by simp)
    (fun w hw => by
      have hwv : w = v := by simpa using hw
      subst hwv
      exact ⟨d, hd, Or.inr rfl⟩)
    (services.length + 1) services.dedup
    ((registryKeys registry).filter (fun svc => !(services.contains svc))) []
    hlen
    (fun w hw => by
      have hwv : w = v := by simpa using hw
      subst hwv
      exact List.mem_dedup.mpr hv)
    (fun x hx hxmem => by
      have h2 := (List.mem_filter.mp hxmem).2
      rw [contains_iff_mem.mpr (List.mem_dedup.mp hx)] at h2
      simp at h2)
    (fun x hx hxmem => by
      subst hx
      exact hdk (List.mem_filter.mp hxmem).1)
    (fun x hx hxmem => by
      subst hx
      exact hds (List.mem_dedup.mp hxmem))
  exact ⟨stuck, hstuck, hmem v (by simp)⟩

/-- Witness for the amended C4 at the concrete ghost registry. -/
theorem C4_amended_unknown_dep_outside_selection_errors_witness :
    ∃ stuck, get_start_order ghostRegistry ["A"] = .error stuck ∧ "A" ∈ stuck :=
  C4_amended_unknown_dep_outside_selection_errors ghostRegistry ["A"] "A" "ghost"
    (by decide) (by decide) (by decide) (by decide)

/-- C10: any selected name absent from the registry is placed in the first
returned batch (its dependencies are never examined), and every batch of the
returned plan is sorted in ascending lexicographic order. -/
theorem C10_unknown_selected_first_batch_and_sorted (registry : Registry)
    (services : List String) :
    ∀ res, get_start_order registry services = .ok res →
      (∀ s ∈ services, s ∉ registryKeys registry → ∃ b rest, res = b :: rest ∧ s ∈ b) ∧
      (∀ b ∈ res, List.Sorted (fun a b => a ≤ b) b) := by
  intro res hres
  refine ⟨?_, (get_start_order_ok_spec hres).2.2.1⟩
  intro s hs hk
  have h' : startOrderGo registry (services.length + 1) services.dedup
      ((registryKeys registry).filter (fun svc => !(services.contains svc))) [] = .ok res := hres
  have hsd : s ∈ services.dedup := List.mem_dedup.mpr hs
  have hdedup_ne : ¬ (services.dedup.isEmpty = true) := by
    intro he
    rw [List.isEmpty_iff.mp he] at hsd
    exact List.not_mem_nil s hsd
  simp only [startOrderGo] at h'
  rw [if_neg hdedup_ne] at h'
  have hsB : s ∈ passBatch registry
      ((registryKeys registry).filter (fun svc => !(services.contains svc))) services.dedup :=
    List.mem_filter.mpr ⟨hsd, depsSatisfied_of_unknown hk⟩
  have hBne : ¬ ((passBatch registry
      ((registryKeys registry).filter (fun svc => !(services.contains svc)))
      services.dedup).isEmpty = true) := by
    intro he
    rw [List.isEmpty_iff.mp he] at hsB
    exact List.not_mem_nil s hsB
  rw [if_neg hBne] at h'
  obtain ⟨tail, ht⟩ := startOrderGo_extends registry _ _ _ _ _ h'
  refine ⟨List.insertionSort (fun a b => a ≤ b)
    (passBatch registry
      ((registryKeys registry).filter (fun svc => !(services.contains svc)))
      services.dedup), tail, ?_, ?_⟩
  · rw [ht]; simp
  · exact (List.mem_insertionSort (fun a b => a ≤ b)).mpr hsB

/-- Witness for C10: the unknown name `zzz` lands in the first batch of the
returned plan and every returned batch is sorted. -/
theorem C10_unknown_selected_first_batch_and_sorted_witness :
    (∀ s ∈ (["zzz"] : List String), s ∉ registryKeys chainRegistry →
      ∃ b rest, [["zzz"]] = b :: rest ∧ s ∈ b) ∧
    (∀ b ∈ [["zzz"]], List.Sorted (fun a b => a ≤ b) b) := by
  have h : get_start_order chainRegistry ["zzz"] = .ok [["zzz"]] := rfl
  exact C10_unknown_selected_first_batch_and_sorted chainRegistry ["zzz"] [["zzz"]] h

/-! ### The naive closures diverge on a cyclic registry (C3) -/

theorem getDependentsGo_cyclic_none : ∀ fuel,
    getDependentsGo cyclicRegistry fuel "a" = none ∧
    getDependentsGo cyclicRegistry fuel "b" = none := by
  intro fuel
  induction fuel with
  | zero => exact ⟨rfl, rfl⟩
  | succ fuel ih =>
    obtain ⟨iha, ihb⟩ := ih
    simp only [cyclicRegistry, mkService] at iha ihb ⊢
    constructor
    · simp [getDependentsGo, depNames, List.foldlM, ihb]
    · simp [getDependentsGo, depNames, List.foldlM, iha]

theorem getDependenciesGo_cyclic_none : ∀ fuel,
    getDependenciesGo cyclicRegistry fuel "a" = none ∧
    getDependenciesGo cyclicRegistry fuel "b" = none := by
  intro fuel
  induction fuel with
  | zero => exact ⟨rfl, rfl⟩
  | succ fuel ih =>
    obtain ⟨iha, ihb⟩ := ih
    simp only [cyclicRegistry, mkService] at iha ihb ⊢
    constructor
    · simp [getDependenciesGo, lookupService, List.find?, depNames, List.foldlM, ihb]
    · simp [getDependenciesGo, lookupService, List.find?, depNames, List.foldlM, iha]

/-- C3: the recursive closures `get_dependents` and `get_dependencies` of the
dependency graph carry no visited-set guard: on a registry whose edges form a
cycle the recursion exceeds every fuel bound (the source recursion never
terminates), so the operations do not terminate on malformed cyclic input as
the specification requires. -/
theorem C3_naive_closures_lack_visited_guard :
    (∀ fuel, getDependentsGo cyclicRegistry fuel "a" = none) ∧
    (∀ fuel, getDependenciesGo cyclicRegistry fuel "a" = none) ∧
    get_dependents cyclicRegistry "a" = none ∧
    get_dependencies cyclicRegistry "a" = none :=
  ⟨fun fuel => (getDependentsGo_cyclic_none fuel).1,
   fun fuel => (getDependenciesGo_cyclic_none fuel).1,
   (getDependentsGo_cyclic_none (cyclicRegistry.length + 1)).1,
   (getDependenciesGo_cyclic_none (cyclicRegistry.length + 1)).1⟩

/-- C8: `stop_service` computes the transitive dependents first; when they
are nonempty and `force` is false it returns the `DependencyWarning` carrying
the service name, the dependents and the message, while the stop response is
computed from the driver outcome independently of the warning (the stop
proceeds); and any driver failure of `stop_service` or `start_service`
(exception or non-zero exit) is captured into a response with
`success = false` carrying the driver error text, never re-raised. -/
theorem C8_stop_warning_and_driver_failure_capture (registry : Registry) (name : String)
    (profile : Option String) (driver : Option String → Except String CompletedProcess)
    (sd : ServiceDefinition) (deps : List String)
    (hlook : lookupService registry name = some sd)
    (hdeps : get_dependents registry name = some deps) :
    (∀ force, ∃ resp warn,
      stop_service registry name force profile driver = some (resp, warn) ∧
      (deps ≠ [] → force = false →
        warn = some ⟨name, deps,
          "Stopping " ++ name ++ " will affect: " ++
            String.intercalate ", " (List.insertionSort (fun a b => a ≤ b) deps)⟩) ∧
      (∀ e, driver profile = .error e → resp.success = false ∧ resp.error = some e) ∧
      (∀ proc, driver profile = .ok proc → proc.returncode ≠ 0 →
        resp.success = false ∧ resp.error = some proc.stderr)) ∧
    ((stop_service registry name false profile driver).map (fun r => r.1) =
      (stop_service registry name true profile driver).map (fun r => r.1)) ∧
    (∀ (driver2 : Option String → String → Except String CompletedProcess) env e,
      (∀ p, driver2 p env = .error e) →
      (start_service registry name profile env driver2).success = false ∧
      (start_service registry name profile env driver2).error = some e) ∧
    (∀ (driver2 : Option String → String → Except String CompletedProcess) env proc,
      (∀ p, driver2 p env = .ok proc) → proc.returncode ≠ 0 →
      (start_service registry name profile env driver2).success = false ∧
      (start_service registry name profile env driver2).error = some proc.stderr) := by
  refine ⟨?_, ?_, ?_, ?_⟩
  · intro force
    simp only [stop_service, hlook, hdeps]
    refine ⟨_, _, rfl, ?_, ?_, ?_⟩
    · intro hne hforce
      subst hforce
      have hie : deps.isEmpty = false := by
        rcases h : deps.isEmpty with _ | _
        · rfl
        · exact absurd (List.isEmpty_iff.mp h) hne
      rw [if_pos]
      rw [hie]
      rfl
    · intro e he
      rw [he]
      exact ⟨rfl, rfl⟩
    · intro proc hp hnz
      rw [hp]
      dsimp only
      rw [if_neg hnz]
      exact ⟨rfl, rfl⟩
  · simp only [stop_service, hlook, hdeps]
    rfl
  · intro driver2 env e hd
    simp only [start_service, hlook]
    rw [hd]
    exact ⟨rfl, rfl⟩
  · intro driver2 env proc hd hnz
    simp only [start_service, hlook]
    rw [hd]
    dsimp only
    rw [if_neg hnz]
    exact ⟨rfl, rfl⟩

/-- Witness for C8 on the chain registry: stopping `A` (dependents `B`, `C`)
with an exception-throwing driver. -/
theorem C8_stop_warning_and_driver_failure_capture_witness :
    (∀ force, ∃ resp warn,
      stop_service chainRegistry "A" force none (fun _ => .error "boom") = some (resp, warn) ∧
      ((["B", "C"] : List String) ≠ [] → force = false →
        warn = some ⟨"A", ["B", "C"],
          "Stopping " ++ "A" ++ " will affect: " ++
            String.intercalate ", " (List.insertionSort (fun a b => a ≤ b) ["B", "C"])⟩) ∧
      (∀ e, (fun (_ : Option String) => (.error "boom" : Except String CompletedProcess)) none = .error e →
        resp.success = false ∧ resp.error = some e) ∧
      (∀ proc, (fun (_ : Option String) => (.error "boom" : Except String CompletedProcess)) none = .ok proc →
        proc.returncode ≠ 0 → resp.success = false ∧ resp.error = some proc.stderr)) ∧
    ((stop_service chainRegistry "A" false none (fun _ => .error "boom")).map (fun r => r.1) =
      (stop_service chainRegistry "A" true none (fun _ => .error "boom")).map (fun r => r.1)) ∧
    (∀ (driver2 : Option String → String → Except String CompletedProcess) env e,
      (∀ p, driver2 p env = .error e) →
      (start_service chainRegistry "A" none env driver2).success = false ∧
      (start_service chainRegistry "A" none env driver2).error = some e) ∧
    (∀ (driver2 : Option String → String → Except String CompletedProcess) env proc,
      (∀ p, driver2 p env = .ok proc) → proc.returncode ≠ 0 →
      (start_service chainRegistry "A" none env driver2).success = false ∧
      (start_service chainRegistry "A" none env driver2).error = some proc.stderr) :=
  C8_stop_warning_and_driver_failure_capture chainRegistry "A" none (fun _ => .error "boom")
    (mkService "A" []) ["B", "C"] rfl rfl

/-! ### Association-list (dict) lemmas -/

theorem lookupConfig_eq_dictLookup (n : String) :
    lookupConfig n = dictLookup SERVICE_CONFIGS n := rfl

theorem dictLookup_mem {α : Type} {d : List (String × α)} {k : String} {v : α}
    (h : dictLookup d k = some v) : (k, v) ∈ d := by
  unfold dictLookup at h
  rcases hfind : d.find? (fun p => p.1 == k) with _ | p
  · rw [hfind] at h; simp at h
  · rw [hfind] at h
    have hp : p.1 = k := by simpa using List.find?_some hfind
    have hmem := List.mem_of_find?_eq_some hfind
    have hv : p.2 = v := by simpa using h
    obtain ⟨a, b⟩ := p
    simp only at hp hv
    rw [← hp, ← hv]
    exact hmem

theorem dictLookup_eq_none_iff {α : Type} {d : List (String × α)} {k : String} :
    dictLookup d k = none ↔ k ∉ keysOf d := by
  unfold dictLookup keysOf
  constructor
  · intro h hk
    obtain ⟨p, hp, hpk⟩ := List.mem_map.mp hk
    rcases hfind : d.find? (fun p => p.1 == k) with _ | q
    · rw [List.find?_eq_none] at hfind
      exact hfind p hp (by simp [hpk])
    · rw [hfind] at h; simp at h
  · intro hk
    rcases hfind : d.find? (fun p => p.1 == k) with _ | q
    · rw [hfind]; rfl
    · have hq : q.1 = k := by simpa using List.find?_some hfind
      exact absurd (List.mem_map.mpr ⟨q, List.mem_of_find?_eq_some hfind, hq⟩) hk

theorem mem_keysOf_of_dictLookup {α : Type} {d : List (String × α)} {k : String} {v : α}
    (h : dictLookup d k = some v) : k ∈ keysOf d := by
  by_contra hk
  rw [← dictLookup_eq_none_iff] at hk
  rw [h] at hk
  exact Option.noConfusion hk

theorem dictLookup_of_mem_keysOf {α : Type} {d : List (String × α)} {k : String}
    (h : k ∈ keysOf d) : ∃ v, dictLookup d k = some v := by
  rcases hl : dictLookup d k with _ | v
  · exact absurd (dictLookup_eq_none_iff.mp hl) (by simp [h])
  · exact ⟨v, rfl⟩

theorem mem_dictLookup {α : Type} {d : List (String × α)} {k : String} {v : α}
    (hnd : (keysOf d).Nodup) (h : (k, v) ∈ d) : dictLookup d k = some v := by
  induction d with
  | nil => exact absurd h (List.not_mem_nil _)
  | cons q rest ih =>
    have hnd' : (keysOf rest).Nodup ∧ q.1 ∉ keysOf rest := by
      have h2 := hnd
      simp only [keysOf, List.map_cons, List.nodup_cons] at h2
      exact ⟨h2.2, h2.1⟩
    rcases List.mem_cons.mp h with hq | hrest
    · subst hq
      simp [dictLookup, List.find?_cons]
    · have hq1 : (q.1 == k) = false := by
        have hkr : k ∈ keysOf rest := List.mem_map.mpr ⟨(k, v), hrest, rfl⟩
        rcases hqk : (q.1 == k) with _ | _
        · rfl
        · have hqe : q.1 = k := by simpa using hqk
          rw [hqe] at hnd'
          exact absurd hkr hnd'.2
      have hrec := ih hnd'.1 hrest
      unfold dictLookup at hrec ⊢
      simp only [List.find?_cons, hq1]
      exact hrec

theorem dictLookup_append_left {α : Type} {d₁ d₂ : List (String × α)} {k : String} {v : α}
    (h : dictLookup d₁ k = some v) : dictLookup (d₁ ++ d₂) k = some v := by
  unfold dictLookup at h ⊢
  rw [List.find?_append]
  rcases hfind : d₁.find? (fun p => p.1 == k) with _ | q
  · rw [hfind] at h; simp at h
  · rw [hfind] at h
    rw [hfind]
    simpa using h

theorem dictLookup_append_right {α : Type} {d₁ d₂ : List (String × α)} {k : String}
    (h : k ∉ keysOf d₁) : dictLookup (d₁ ++ d₂) k = dictLookup d₂ k := by
  have h1 : dictLookup d₁ k = none := dictLookup_eq_none_iff.mpr h
  unfold dictLookup at h1 ⊢
  rw [List.find?_append]
  rcases hfind : d₁.find? (fun p => p.1 == k) with _ | q
  · rw [hfind]
    simp
  · rw [hfind] at h1; simp at h1

/-! ### Facts about the policy table and its transitive closure -/

set_option maxRecDepth 4000

theorem configs_keys_nodup : (keysOf SERVICE_CONFIGS).Nodup := by decide

theorem lookupConfig_of_mem {n : String} {c : ServiceConfig}
    (h : (n, c) ∈ SERVICE_CONFIGS) : lookupConfig n = some c :=
  mem_dictLookup configs_keys_nodup h

theorem lookupConfig_mem {n : String} {c : ServiceConfig}
    (h : lookupConfig n = some c) : (n, c) ∈ SERVICE_CONFIGS :=
  dictLookup_mem h

theorem allDepsGo_eq_nil_of_no_config {s : String} (h : lookupConfig s = none) :
    ∀ fuel visited, allDepsGo fuel s visited = [] := by
  intro fuel visited
  cases fuel with
  | zero => rfl
  | succ fuel => simp [allDepsGo, h]

theorem get_all_dependencies_eq_nil_of_no_config {s : String} (h : lookupConfig s = none)
    (visited : List String) : get_all_dependencies s visited = [] :=
  allDepsGo_eq_nil_of_no_config h _ _

theorem mem_configs_of_alldeps {s d : String} (h : d ∈ get_all_dependencies s []) :
    ∃ c, lookupConfig s = some c := by
  rcases hl : lookupConfig s with _ | c
  · rw [get_all_dependencies_eq_nil_of_no_config hl] at h
    exact absurd h (List.not_mem_nil d)
  · exact ⟨c, rfl⟩

theorem alldeps_trans_table : ∀ p ∈ SERVICE_CONFIGS, ∀ d ∈ get_all_dependencies p.1 [],
    ∀ x ∈ get_all_dependencies d [], x ∈ get_all_dependencies p.1 [] := by decide

theorem alldeps_subset_table : ∀ p ∈ SERVICE_CONFIGS, ∀ d ∈ get_all_dependencies p.1 [],
    d ∈ keysOf SERVICE_CONFIGS := by decide

theorem alldeps_required_table : ∀ p ∈ SERVICE_CONFIGS, p.2.required = true →
    ∀ d ∈ get_all_dependencies p.1 [], d ∈ requiredNames := by decide

theorem alldeps_trans {s d x : String} (hd : d ∈ get_all_dependencies s [])
    (hx : x ∈ get_all_dependencies d []) : x ∈ get_all_dependencies s [] := by
  obtain ⟨c, hc⟩ := mem_configs_of_alldeps hd
  exact alldeps_trans_table (s, c) (lookupConfig_mem hc) d hd x hx

theorem alldeps_mem_keys {s d : String} (hd : d ∈ get_all_dependencies s []) :
    d ∈ keysOf SERVICE_CONFIGS := by
  obtain ⟨c, hc⟩ := mem_configs_of_alldeps hd
  exact alldeps_subset_table (s, c) (lookupConfig_mem hc) d hd

theorem mem_requiredNames_iff {d : String} :
    d ∈ requiredNames ↔ ∃ c, lookupConfig d = some c ∧ c.required = true := by
  unfold requiredNames
  constructor
  · intro h
    obtain ⟨p, hp, hp1⟩ := List.mem_map.mp h
    have hpf := List.mem_filter.mp hp
    refine ⟨p.2, ?_, hpf.2⟩
    rw [← hp1]
    exact lookupConfig_of_mem (by
      have := hpf.1
      obtain ⟨a, b⟩ := p
      exact this)
  · rintro ⟨c, hc, hreq⟩
    exact List.mem_map.mpr ⟨(d, c),
      List.mem_filter.mpr ⟨lookupConfig_mem hc, hreq⟩, rfl⟩

theorem alldeps_required {s d : String} {c : ServiceConfig}
    (hc : lookupConfig s = some c) (hreq : c.required = true)
    (hd : d ∈ get_all_dependencies s []) :
    ∃ c2, lookupConfig d = some c2 ∧ c2.required = true :=
  mem_requiredNames_iff.mp (alldeps_required_table (s, c) (lookupConfig_mem hc) hreq d hd)

/-! ### Key-set characterizations of the selection-validator folds -/

theorem keysOf_dictAppend {d : List (String × List String)} {k0 v k : String} :
    k ∈ keysOf (dictAppend d k0 v) ↔ k ∈ keysOf d ∨ k = k0 := by
  unfold dictAppend
  by_cases hany : d.any (fun p => p.1 == k0) = true
  · rw [if_pos hany]
    have hk0 : k0 ∈ keysOf d := by
      obtain ⟨p, hp, hpk⟩ := List.any_eq_true.mp hany
      exact List.mem_map.mpr ⟨p, hp, by simpa using hpk⟩
    have hkeys : keysOf (d.map (fun p => if p.1 == k0 then (p.1, p.2 ++ [v]) else p)) = keysOf d := by
      unfold keysOf
      rw [List.map_map]
      apply List.map_congr_left
      intro p _
      by_cases h : p.1 = k0 <;> simp [h]
    rw [hkeys]
    constructor
    · exact Or.inl
    · rintro (h | h)
      · exact h
      · rw [h]; exact hk0
  · rw [if_neg hany]
    unfold keysOf
    simp

theorem depsFoldInner_keys (svc : String) (ds : List String) :
    ∀ (init : List (String × List String)) (k : String),
    k ∈ keysOf (ds.foldl (fun r dep => dictAppend r dep svc) init) ↔
      k ∈ keysOf init ∨ k ∈ ds := by
  induction ds with
  | nil =>
    intro init k
    simp
  | cons d rest ih =>
    intro init k
    rw [List.foldl_cons, ih, keysOf_dictAppend]
    constructor
    · rintro ((h | h) | h)
      · exact Or.inl h
      · exact Or.inr (by rw [h]; exact List.mem_cons_self d rest)
      · exact Or.inr (List.mem_cons_of_mem d h)
    · rintro (h | h)
      · exact Or.inl (Or.inl h)
      · rcases List.mem_cons.mp h with h | h
        · exact Or.inl (Or.inr h)
        · exact Or.inr h

theorem requiredDepsFold_keys (selected : List String) (k : String) :
    k ∈ keysOf (requiredDepsFold selected) ↔
      ∃ s ∈ selected, k ∈ get_all_dependencies s [] := by
  have aux : ∀ (sel : List String) (init : List (String × List String)),
      k ∈ keysOf (sel.foldl (fun req service =>
        (get_all_dependencies service []).foldl
          (fun req2 dep => dictAppend req2 dep service) req) init) ↔
      k ∈ keysOf init ∨ ∃ s ∈ sel, k ∈ get_all_dependencies s [] := by
    intro sel
    induction sel with
    | nil =>
      intro init
      simp
    | cons s rest ih =>
      intro init
      rw [List.foldl_cons, ih, depsFoldInner_keys]
      constructor
      · rintro ((h | h) | h)
        · exact Or.inl h
        · exact Or.inr ⟨s, List.mem_cons_self s rest, h⟩
        · obtain ⟨t, ht, hk⟩ := h
          exact Or.inr ⟨t, List.mem_cons_of_mem s ht, hk⟩
      · rintro (h | ⟨t, ht, hk⟩)
        · exact Or.inl (Or.inl h)
        · rcases List.mem_cons.mp ht with he | hm
          · subst he
            exact Or.inl (Or.inr hk)
          · exact Or.inr ⟨t, hm, hk⟩
  unfold requiredDepsFold
  rw [aux]
  simp [keysOf]

theorem coreFold_keys (entries : List (String × ServiceConfig)) :
    ∀ (init : List (String × List String)) (k : String),
    k ∈ keysOf (entries.foldl (fun req p =>
      if p.2.required && !(req.any (fun q => q.1 == p.1)) then
        req ++ [(p.1, ["(core infrastructure)"])]
      else req) init) ↔
    k ∈ keysOf init ∨ ∃ p ∈ entries, p.1 = k ∧ p.2.required = true := by
  induction entries with
  | nil =>
    intro init k
    simp
  | cons e rest ih =>
    intro init k
    rw [List.foldl_cons, ih]
    constructor
    · rintro (h | h)
      · by_cases hcond : (e.2.required && !(init.any (fun q => q.1 == e.1))) = true
        · rw [if_pos hcond] at h
          have h2 : k ∈ keysOf init ∨ k = e.1 := by
            unfold keysOf at h ⊢
            simpa using h
          rcases h2 with h2 | h2
          · exact Or.inl h2
          · refine Or.inr ⟨e, List.mem_cons_self e rest, h2.symm, ?_⟩
            have h3 := hcond
            simp only [Bool.and_eq_true] at h3
            exact h3.1
        · rw [if_neg hcond] at h
          exact Or.inl h
      · obtain ⟨p, hp, hp1, hp2⟩ := h
        exact Or.inr ⟨p, List.mem_cons_of_mem e hp, hp1, hp2⟩
    · rintro (h | ⟨p, hp, hp1, hp2⟩)
      · left
        by_cases hcond : (e.2.required && !(init.any (fun q => q.1 == e.1))) = true
        · rw [if_pos hcond]
          unfold keysOf at h ⊢
          simp [h]
        · rw [if_neg hcond]
          exact h
      · rcases List.mem_cons.mp hp with he | hm
        · subst he
          subst hp1
          left
          by_cases hcond : (p.2.required && !(init.any (fun q => q.1 == p.1))) = true
          · rw [if_pos hcond]
            unfold keysOf
            simp
          · rw [if_neg hcond]
            rw [hp2] at hcond
            simp only [Bool.true_and] at hcond
            have hany : (init.any (fun q => q.1 == p.1)) = true := by
              rcases ha : init.any (fun q => q.1 == p.1) with _ | _
              · rw [ha] at hcond; simp at hcond
              · rfl
            obtain ⟨q, hq, hqk⟩ := List.any_eq_true.mp hany
            exact List.mem_map.mpr ⟨q, hq, by simpa using hqk⟩
        · exact Or.inr ⟨p, hm, hp1, hp2⟩

theorem rf_keys_iff (selected : List String) (k : String) :
    k ∈ keysOf (get_required_for_selection selected) ↔
      (∃ s ∈ selected, k ∈ get_all_dependencies s []) ∨
      (∃ c, lookupConfig k = some c ∧ c.required = true) := by
  unfold get_required_for_selection requiredCoreFold
  rw [coreFold_keys, requiredDepsFold_keys]
  constructor
  · rintro (h | ⟨p, hp, hp1, hp2⟩)
    · exact Or.inl h
    · refine Or.inr ⟨p.2, ?_, hp2⟩
      rw [← hp1]
      exact lookupConfig_of_mem (by obtain ⟨a, b⟩ := p; exact hp)
  · rintro (h | ⟨c, hc, hreq⟩)
    · exact Or.inl h
    · exact Or.inr ⟨(k, c), lookupConfig_mem hc, rfl, hreq⟩

theorem coreFold_extends (entries : List (String × ServiceConfig)) :
    ∀ init, ∃ l, entries.foldl (fun req p =>
      if p.2.required && !(req.any (fun q => q.1 == p.1)) then
        req ++ [(p.1, ["(core infrastructure)"])]
      else req) init = init ++ l := by
  induction entries with
  | nil =>
    intro init
    exact ⟨[], by simp⟩
  | cons e rest ih =>
    intro init
    rw [List.foldl_cons]
    by_cases hcond : (e.2.required && !(init.any (fun q => q.1 == e.1))) = true
    · rw [if_pos hcond]
      obtain ⟨l, hl⟩ := ih (init ++ [(e.1, ["(core infrastructure)"])])
      exact ⟨[(e.1, ["(core infrastructure)"])] ++ l, by rw [hl, List.append_assoc]⟩
    · rw [if_neg hcond]
      exact ih init

theorem coreFold_lookup_core {k : String} {c : ServiceConfig} :
    ∀ (entries : List (String × ServiceConfig)) (init : List (String × List String)),
    (keysOf entries).Nodup →
    dictLookup init k = none →
    (k, c) ∈ entries → c.required = true →
    dictLookup (entries.foldl (fun req p =>
      if p.2.required && !(req.any (fun q => q.1 == p.1)) then
        req ++ [(p.1, ["(core infrastructure)"])]
      else req) init) k = some ["(core infrastructure)"] := by
  intro entries
  induction entries with
  | nil =>
    intro init _ _ hmem _
    exact absurd hmem (List.not_mem_nil _)
  | cons e rest ih =>
    intro init hnd hnone hmem hreq
    have hnd' : (keysOf rest).Nodup ∧ e.1 ∉ keysOf rest := by
      simp only [keysOf, List.map_cons, List.nodup_cons] at hnd
      exact ⟨hnd.2, hnd.1⟩
    rw [List.foldl_cons]
    rcases List.mem_cons.mp hmem with he | hrest
    · have he1 : e.1 = k := by rw [← he]
      have he2 : e.2 = c := by rw [← he]
      have hknotin : k ∉ keysOf init := dictLookup_eq_none_iff.mp hnone
      have hany : (init.any (fun q => q.1 == e.1)) = false := by
        rcases ha : init.any (fun q => q.1 == e.1) with _ | _
        · rfl
        · obtain ⟨p, hp, hpk⟩ := List.any_eq_true.mp ha
          have hpe : p.1 = e.1 := by simpa using hpk
          exact absurd (List.mem_map.mpr ⟨p, hp, by rw [hpe, he1]⟩) hknotin
      have hcond : (e.2.required && !(init.any (fun q => q.1 == e.1))) = true := by
        rw [he2, hreq, hany]
        rfl
      rw [if_pos hcond]
      have hbase : dictLookup (init ++ [(e.1, ["(core infrastructure)"])]) k
          = some ["(core infrastructure)"] := by
        rw [dictLookup_append_right hknotin, he1]
        simp [dictLookup, List.find?_cons]
      obtain ⟨l, hl⟩ := coreFold_extends rest (init ++ [(e.1, ["(core infrastructure)"])])
      rw [hl]
      exact dictLookup_append_left hbase
    · have hkrest : k ∈ keysOf rest := List.mem_map.mpr ⟨(k, c), hrest, rfl⟩
      have hne : e.1 ≠ k := fun h => hnd'.2 (h ▸ hkrest)
      have hnone' : dictLookup (if (e.2.required && !(init.any (fun q => q.1 == e.1))) = true then
          init ++ [(e.1, ["(core infrastructure)"])] else init) k = none := by
        by_cases hcond : (e.2.required && !(init.any (fun q => q.1 == e.1))) = true
        · rw [if_pos hcond]
          rw [dictLookup_append_right (dictLookup_eq_none_iff.mp hnone)]
          simp [dictLookup, List.find?_cons, hne]
        · rw [if_neg hcond]
          exact hnone
      by_cases hcond : (e.2.required && !(init.any (fun q => q.1 == e.1))) = true
      · rw [if_pos hcond]
        rw [if_pos hcond] at hnone'
        exact ih _ hnd'.1 hnone' hrest hreq
      · rw [if_neg hcond]
        rw [if_neg hcond] at hnone'
        exact ih _ hnd'.1 hnone' hrest hreq


theorem autoStep_keys (selected : List String) (init : List (String × AutoEnabledEntry))
    (p : String × List String) (k : String) :
    k ∈ keysOf (autoStep selected init p) ↔
      k ∈ keysOf init ∨ (k = p.1 ∧ k ∉ selected ∧ ∃ c, lookupConfig k = some c) := by
  unfold autoStep
  by_cases hsel : (selected.contains p.1) = true
  · have hb : (!selected.contains p.1) = false := by rw [hsel]; rfl
    rw [hb]
    rw [if_neg (by simp : ¬ ((false : Bool) = true))]
    constructor
    · exact Or.inl
    · rintro (h | ⟨hk, hks, _⟩)
      · exact h
      · exact absurd (contains_iff_mem.mp (hk ▸ hsel)) hks
  · have hself : (selected.contains p.1) = false := by
      rcases h : selected.contains p.1 with _ | _
      · rfl
      · exact absurd h hsel
    have hb : (!selected.contains p.1) = true := by rw [hself]; rfl
    rw [hb]
    rw [if_pos rfl]
    have hknot : p.1 ∉ selected := fun hmem => by
      rw [contains_iff_mem.mpr hmem] at hself
      exact Bool.noConfusion hself
    rcases hlc : lookupConfig p.1 with _ | c
    · constructor
      · exact Or.inl
      · rintro (h | ⟨hk, _, c2, hc2⟩)
        · exact h
        · rw [hk] at hc2
          rw [hc2] at hlc
          exact Option.noConfusion hlc
    · constructor
      · intro h
        have h2 : k ∈ keysOf init ∨ k = p.1 := by
          unfold keysOf at h ⊢
          simpa using h
        rcases h2 with h2 | h2
        · exact Or.inl h2
        · exact Or.inr ⟨h2, h2 ▸ hknot, c, h2 ▸ hlc⟩
      · rintro (h | ⟨hk, _, _⟩)
        · unfold keysOf at h ⊢
          simp [h]
        · unfold keysOf
          simp [hk]

theorem autoFold_keys (selected : List String) :
    ∀ (req : List (String × List String)) (init : List (String × AutoEnabledEntry)) (k : String),
    k ∈ keysOf (req.foldl (autoStep selected) init) ↔
      k ∈ keysOf init ∨
        (k ∈ keysOf req ∧ k ∉ selected ∧ ∃ c, lookupConfig k = some c) := by
  intro req
  induction req with
  | nil =>
    intro init k
    simp [keysOf]
  | cons p rest ih =>
    intro init k
    rw [List.foldl_cons, ih, autoStep_keys]
    constructor
    · rintro ((h | ⟨hk, hks, hc⟩) | ⟨hk, hks, hc⟩)
      · exact Or.inl h
      · exact Or.inr ⟨by unfold keysOf; simp [hk], hks, hc⟩
      · exact Or.inr ⟨by unfold keysOf at hk ⊢; simp [hk], hks, hc⟩
    · rintro (h | ⟨hk, hks, hc⟩)
      · exact Or.inl (Or.inl h)
      · have hk2 : k = p.1 ∨ k ∈ keysOf rest := by
          unfold keysOf at hk
          simpa [keysOf] using hk
        rcases hk2 with hk2 | hk2
        · exact Or.inl (Or.inr ⟨hk2, hks, hc⟩)
        · exact Or.inr ⟨hk2, hks, hc⟩

theorem validate_auto_keys (selected : List String) (profile : String) (k : String) :
    k ∈ keysOf (validate_selection selected profile).auto_enabled ↔
      k ∈ keysOf (get_required_for_selection selected) ∧ k ∉ selected ∧
        ∃ c, lookupConfig k = some c := by
  have hproj : (validate_selection selected profile).auto_enabled =
      (get_required_for_selection selected).foldl (autoStep selected) [] := rfl
  rw [hproj, autoFold_keys]
  simp [keysOf]

theorem warnFold_eq (profile : String) :
    ∀ (sel : List String) (ws0 : List String),
    sel.foldl (warnStep profile) ws0 =
      ws0 ++ (sel.filter (profileMismatch profile)).map (fun s =>
        match lookupConfig s with
        | some c => profileWarningText c profile
        | none => "") := by
  intro sel
  induction sel with
  | nil =>
    intro ws0
    simp
  | cons s rest ih =>
    intro ws0
    rw [List.foldl_cons, ih]
    rcases hlc : lookupConfig s with _ | c
    · have h1 : warnStep profile ws0 s = ws0 := by
        unfold warnStep
        rw [hlc]
      have h2 : profileMismatch profile s = false := by
        unfold profileMismatch
        rw [hlc]
      rw [h1, List.filter_cons, h2]
      simp
    · by_cases hprof : c.profiles.isEmpty = true
      · have h1 : warnStep profile ws0 s = ws0 := by
          simp [warnStep, hlc, hprof]
        have h2 : profileMismatch profile s = false := by
          simp [profileMismatch, hlc, hprof]
        rw [h1, List.filter_cons, h2]
        simp
      · have hpe : c.profiles.isEmpty = false := by
          rcases h : c.profiles.isEmpty with _ | _
          · rfl
          · exact absurd h hprof
        by_cases hcond : (!(c.profiles.contains profile) && !(profile == "none")) = true
        · have hparts := hcond
          simp only [Bool.and_eq_true] at hparts
          have hnotmem : profile ∉ c.profiles := by
            intro hmem
            rw [contains_iff_mem.mpr hmem] at hparts
            exact Bool.noConfusion hparts.1
          have hne : ¬ (profile = "none") := by
            intro he
            rw [he] at hparts
            exact Bool.noConfusion hparts.2
          have h1 : warnStep profile ws0 s = ws0 ++ [profileWarningText c profile] := by
            simp [warnStep, hlc, hpe, hnotmem, hne]
          have h2 : profileMismatch profile s = true := by
            simp [profileMismatch, hlc, hpe, hnotmem, hne]
          rw [h1, List.filter_cons, h2]
          simp [hlc]
        · have hcondF : (!(c.profiles.contains profile) && !(profile == "none")) = false := by
            rcases h : (!(c.profiles.contains profile) && !(profile == "none")) with _ | _
            · rfl
            · exact absurd h hcond
          have h1 : warnStep profile ws0 s = ws0 := by
            simp only [warnStep, hlc]
            rw [hpe]
            simp only [Bool.not_false, if_true]
            rw [hcondF]
            rfl
          have h2 : profileMismatch profile s = false := by
            simp only [profileMismatch, hlc]
            rw [Bool.and_assoc, hcondF]
            simp
          rw [h1, List.filter_cons, h2]
          simp

/-- C5: for every selection, every policy entry with `required = true` is
among the keys of `get_required_for_selection`; it is tagged
`"(core infrastructure)"` whenever no selected service transitively requires
it; and for the empty selection it appears in the `auto_enabled` map of
`validate_selection` under every profile. -/
theorem C5_required_entries_always_added (selected : List String) (k : String)
    (c : ServiceConfig) (hc : lookupConfig k = some c) (hreq : c.required = true) :
    k ∈ keysOf (get_required_for_selection selected) ∧
    ((∀ s ∈ selected, k ∉ get_all_dependencies s []) →
      dictLookup (get_required_for_selection selected) k = some ["(core infrastructure)"]) ∧
    (∀ profile, k ∈ keysOf (validate_selection [] profile).auto_enabled) := by
  refine ⟨?_, ?_, ?_⟩
  · exact (rf_keys_iff selected k).mpr (Or.inr ⟨c, hc, hreq⟩)
  · intro hnone
    have hdeps_none : dictLookup (requiredDepsFold selected) k = none := by
      rw [dictLookup_eq_none_iff]
      intro hk
      obtain ⟨s, hs, hksel⟩ := (requiredDepsFold_keys selected k).mp hk
      exact hnone s hs hksel
    exact coreFold_lookup_core SERVICE_CONFIGS (requiredDepsFold selected)
      configs_keys_nodup hdeps_none (lookupConfig_mem hc) hreq
  · intro profile
    rw [validate_auto_keys]
    exact ⟨(rf_keys_iff [] k).mpr (Or.inr ⟨c, hc, hreq⟩), by simp, c, hc⟩

/-- Witness for C5 at the required service `vector` and a selection that does
not transitively require it. -/
theorem C5_required_entries_always_added_witness :
    "vector" ∈ keysOf (get_required_for_selection ["searxng"]) ∧
    ((∀ s ∈ (["searxng"] : List String), "vector" ∉ get_all_dependencies s []) →
      dictLookup (get_required_for_selection ["searxng"]) "vector" =
        some ["(core infrastructure)"]) ∧
    (∀ profile, "vector" ∈ keysOf (validate_selection [] profile).auto_enabled) :=
  C5_required_entries_always_added ["searxng"] "vector"
    { name := "vector", display_name := "Vector",
      description := "Log aggregation for Supabase services", group := "supabase",
      dependencies := [], required := true, category := "core" }
    (by decide) (by decide)

/-- C6 counterexample: `required_for` is not idempotent as a mapping.  For
the selection `["db"]`, re-running it on the selection closed under its own
keys extends the requester list of `vector` from `["db"]` to
`["db", "analytics", "kong"]`, so the two results differ. -/
theorem C6_counterexample_required_for_not_idempotent :
    dictLookup (get_required_for_selection ["db"]) "vector" = some ["db"] ∧
    dictLookup (get_required_for_selection
      ((["db"] ++ keysOf (get_required_for_selection ["db"])).dedup)) "vector" =
      some ["db", "analytics", "kong"] ∧
    get_required_for_selection ((["db"] ++ keysOf (get_required_for_selection ["db"])).dedup) ≠
      get_required_for_selection ["db"] := by
  refine ⟨rfl, rfl, ?_⟩
  decide

/-- C6 amended: only the key set of `required_for` is idempotent — for any
representation `T` of the union `S ∪ keys(required_for(S))`, the key sets of
`required_for(T)` and `required_for(S)` coincide (the requester lists of the
keys grow, so the full mappings differ). -/
theorem C6_amended_required_for_keyset_idempotent (S T : List String)
    (hT : ∀ x, x ∈ T ↔ x ∈ S ∨ x ∈ keysOf (get_required_for_selection S)) :
    ∀ k, k ∈ keysOf (get_required_for_selection T) ↔
      k ∈ keysOf (get_required_for_selection S) := by
  intro k
  rw [rf_keys_iff, rf_keys_iff]
  constructor
  · rintro (⟨s, hsT, hk⟩ | h)
    · rcases (hT s).mp hsT with hsS | hsK
      · exact Or.inl ⟨s, hsS, hk⟩
      · rcases (rf_keys_iff S s).mp hsK with ⟨t, htS, hst⟩ | ⟨c, hc, hcr⟩
        · exact Or.inl ⟨t, htS, alldeps_trans hst hk⟩
        · exact Or.inr (alldeps_required hc hcr hk)
    · exact Or.inr h
  · rintro (⟨s, hsS, hk⟩ | h)
    · exact Or.inl ⟨s, (hT s).mpr (Or.inl hsS), hk⟩
    · exact Or.inr h

/-- Witness for the amended C6 at the selection `["db"]` and the key
`analytics`. -/
theorem C6_amended_required_for_keyset_idempotent_witness :
    "analytics" ∈ keysOf (get_required_for_selection
        ((["db"] ++ keysOf (get_required_for_selection ["db"])).dedup)) ↔
      "analytics" ∈ keysOf (get_required_for_selection ["db"]) :=
  C6_amended_required_for_keyset_idempotent ["db"]
    ((["db"] ++ keysOf (get_required_for_selection ["db"])).dedup)
    (fun x => by simp) "analytics"

/-- C7: `validate_selection` produces no errors and is always valid; its
warnings are exactly one entry per selected service whose nonempty policy
profile set excludes the given profile (for a profile other than `"none"`);
`auto_enabled` consists exactly of the keys of `required_for(selection)` not
already selected; `total_services = |selection| + |auto_enabled|`; and the
`ollama-gpu`/`cpu` example yields the profile-mismatch warning with
`valid = true` and an unaffected `auto_enabled`. -/
theorem C7_validate_selection_nonfatal :
    (∀ selected profile,
      (validate_selection selected profile).errors = [] ∧
      (validate_selection selected profile).valid = true ∧
      (validate_selection selected profile).warnings =
        (selected.filter (profileMismatch profile)).map (fun s =>
          match lookupConfig s with
          | some c => profileWarningText c profile
          | none => "") ∧
      (∀ k, k ∈ keysOf (validate_selection selected profile).auto_enabled ↔
        k ∈ keysOf (get_required_for_selection selected) ∧ k ∉ selected) ∧
      (validate_selection selected profile).total_services =
        selected.length + (validate_selection selected profile).auto_enabled.length) ∧
    (validate_selection ["ollama-gpu"] "cpu").warnings =
      ["Ollama (NVIDIA GPU) requires profile [\x27gpu-nvidia\x27], but cpu was selected"] ∧
    (validate_selection ["ollama-gpu"] "cpu").valid = true ∧
    (validate_selection ["ollama-gpu"] "cpu").auto_enabled =
      (validate_selection [] "cpu").auto_enabled := by
  refine ⟨?_, by decide, rfl, by decide⟩
  intro selected profile
  refine ⟨rfl, rfl, ?_, ?_, rfl⟩
  · have hproj : (validate_selection selected profile).warnings =
        selected.foldl (warnStep profile) [] := rfl
    rw [hproj, warnFold_eq]
    simp
  · intro k
    rw [validate_auto_keys]
    constructor
    · rintro ⟨h1, h2, _⟩
      exact ⟨h1, h2⟩
    · rintro ⟨h1, h2⟩
      refine ⟨h1, h2, ?_⟩
      rcases (rf_keys_iff selected k).mp h1 with ⟨s, _, hks⟩ | ⟨c, hc, _⟩
      · have hkeys := alldeps_mem_keys hks
        rw [lookupConfig_eq_dictLookup]
        exact dictLookup_of_mem_keysOf hkeys
      · exact ⟨c, hc⟩

/-! ### Loader merge semantics (C9) -/

theorem mapSet_lookup_self {α : Type} {k : String} {v : α} :
    ∀ (d : List (String × α)), k ∈ keysOf d →
    dictLookup (d.map (fun p => if p.1 == k then (p.1, v) else p)) k = some v := by
  intro d
  induction d with
  | nil =>
    intro hk
    simp [keysOf] at hk
  | cons q rest ih =>
    intro hk
    by_cases hq : q.1 = k
    · simp [dictLookup, List.find?_cons, hq]
    · have hk' : k ∈ keysOf rest := by
        unfold keysOf at hk
        simp only [List.map_cons, List.mem_cons] at hk
        rcases hk with hk | hk
        · exact absurd hk.symm hq
        · exact hk
      have hrec := ih hk'
      unfold dictLookup at hrec ⊢
      simp only [List.map_cons, List.find?_cons]
      rw [show ((if q.1 == k then (q.1, v) else q).1 == k) = false from by simp [hq]]
      exact hrec

theorem mapSet_lookup_ne {α : Type} {k k' : String} {v : α} (h : k' ≠ k) :
    ∀ (d : List (String × α)),
    dictLookup (d.map (fun p => if p.1 == k then (p.1, v) else p)) k' = dictLookup d k' := by
  intro d
  induction d with
  | nil => rfl
  | cons q rest ih =>
    unfold dictLookup at ih ⊢
    simp only [List.map_cons, List.find?_cons]
    by_cases hq : q.1 = k
    · rw [show ((if q.1 == k then (q.1, v) else q).1 == k') = false from by
        simp [hq]
        exact fun he => h he.symm]
      rw [show (q.1 == k') = false from by
        simp [hq]
        exact fun he => h he.symm]
      exact ih
    · rw [show (if q.1 == k then (q.1, v) else q) = q from by simp [hq]]
      rcases hq' : (q.1 == k') with _ | _
      · simp only [hq']
        exact ih
      · simp only [hq']

theorem dictLookup_dictSet_self {α : Type} {d : List (String × α)} {k : String} {v : α} :
    dictLookup (dictSet d k v) k = some v := by
  unfold dictSet
  by_cases hany : (d.any (fun p => p.1 == k)) = true
  · rw [if_pos hany]
    apply mapSet_lookup_self
    obtain ⟨p, hp, hpk⟩ := List.any_eq_true.mp hany
    exact List.mem_map.mpr ⟨p, hp, by simpa using hpk⟩
  · rw [if_neg hany]
    have hknotin : k ∉ keysOf d := by
      intro hk
      obtain ⟨p, hp, hpk⟩ := List.mem_map.mp hk
      exact hany (List.any_eq_true.mpr ⟨p, hp, by simp [hpk]⟩)
    rw [dictLookup_append_right hknotin]
    simp [dictLookup, List.find?_cons]

theorem dictLookup_dictSet_ne {α : Type} {d : List (String × α)} {k k' : String} {v : α}
    (h : k' ≠ k) : dictLookup (dictSet d k v) k' = dictLookup d k' := by
  unfold dictSet
  by_cases hany : (d.any (fun p => p.1 == k)) = true
  · rw [if_pos hany]
    exact mapSet_lookup_ne h d
  · rw [if_neg hany]
    rcases hl : dictLookup d k' with _ | w
    · rw [dictLookup_append_right (dictLookup_eq_none_iff.mp hl)]
      unfold dictLookup
      simp only [List.find?_cons]
      rw [show (k == k') = false from by
        rcases hkk : (k == k') with _ | _
        · rfl
        · exact absurd (show k = k' by simpa using hkk) (fun he => h he.symm)]
      rfl
    · exact dictLookup_append_left hl

theorem lookupService_eq_dictLookup (registry : Registry) (n : String) :
    lookupService registry n = dictLookup registry n := rfl

theorem parseFold_lookup (source : String) :
    ∀ (svcs : List (String × Option RawService)) (reg : Registry) (name : String),
    lookupService (svcs.foldl (fun reg2 p =>
      match p.2 with
      | none => reg2
      | some raw => dictSet reg2 p.1 (buildServiceDefinition p.1 source raw)) reg) name =
    (match lastDef svcs name with
     | some raw => some (buildServiceDefinition name source raw)
     | none => lookupService reg name) := by
  intro svcs
  induction svcs with
  | nil =>
    intro reg name
    simp [lastDef]
  | cons e rest ih =>
    intro reg name
    obtain ⟨n, cfg⟩ := e
    rw [List.foldl_cons]
    rcases cfg with _ | raw
    · rw [ih]
      rcases hld : lastDef rest name with _ | r
      · simp only [lastDef, hld]
        rcases hn : (n == name) with _ | _ <;> simp [hn]
      · simp [lastDef, hld]
    · rw [ih]
      rcases hld : lastDef rest name with _ | r
      · by_cases he : n = name
        · subst he
          simp only [lastDef, hld]
          rw [lookupService_eq_dictLookup, dictLookup_dictSet_self]
          simp
        · have hn : (n == name) = false := by simp [he]
          have hne : name ≠ n := fun h2 => he h2.symm
          simp only [lastDef, hld, hn]
          rw [lookupService_eq_dictLookup, lookupService_eq_dictLookup,
            dictLookup_dictSet_ne hne]
          simp
      · simp [lastDef, hld]

/-- C9: the loader reads the primary document first and the auxiliary
document second; the final definition of a name present in the later
document is the last dict-shaped definition from that document regardless of
what the earlier document defined, while names absent from the later
document keep the earlier result; a document that fails to parse or has no
service section contributes zero entries, and a malformed primary document
does not abort the load (the auxiliary document still merges). -/
theorem C9_loader_priority_overwrite_and_tolerance :
    (∀ (reg : Registry) (src : String),
      parse_file reg .malformed src = reg ∧ parse_file reg .empty src = reg) ∧
    (∀ supa, parse_all (some .malformed) supa = parse_all none supa) ∧
    (∀ main svcs name,
      lookupService (parse_all main (some (.withServices svcs))) name =
        (match lastDef svcs name with
         | some raw => some (buildServiceDefinition name "supabase" raw)
         | none => lookupService (parse_all main none) name)) := by
  refine ⟨fun reg src => ⟨rfl, rfl⟩, ?_, ?_⟩
  · intro supa
    rcases supa with _ | d <;> rfl
  · intro main svcs name
    exact parseFold_lookup "supabase" svcs
      (match main with | some d => parse_file [] d "main" | none => []) name
